import Mathlib

/-!
# Verification of the repo-scan contribution pipeline

This file gives a shallow embedding of the two source files of the
repository — `merge_loc_histories.py` (the standalone LOC-history merge
utility) and `repo_scan.py` (identity matching and the
acquisition/analysis/aggregation pipeline) — and proves or refutes the
frozen claims about them.

Python dictionaries are modelled as insertion-ordered association lists
(`List (String × β)`): `alGet` is `d[k]` / `k in d`, and `alSet` is
`d[k] = v` (replace in place when the key is present, append otherwise),
exactly the observable behaviour of a `dict` with unique keys.
Machine integers do not overflow in Python, so metric values are `Int`.
-/

set_option autoImplicit false

namespace RepoScan

/-! ## Association lists: the embedding of Python `dict` -/

/-- `d[k]` as an `Option`: the value at the first matching key. -/
def alGet {β : Type} : List (String × β) → String → Option β
  | [], _ => none
  | p :: rest, k => if p.1 = k then some p.2 else alGet rest k

/-- `d[k] = v`: replace the entry in place when the key is present,
append it at the end otherwise (Python `dict` insertion order). -/
def alSet {β : Type} : List (String × β) → String → β → List (String × β)
  | [], k, v => [(k, v)]
  | p :: rest, k, v => if p.1 = k then (k, v) :: rest else p :: alSet rest k v

/-- The key list of a dictionary, in insertion order. -/
def alKeys {β : Type} (l : List (String × β)) : List String :=
  l.map Prod.fst

/-! ## Data model of `merge_loc_histories.py`

A `MetricSet` is the innermost JSON object (metric name → integer), an
`Exts` is one month's object (extension → MetricSet), and a `Hist` is a
whole LOC-history document (month → extension → MetricSet). -/

abbrev MetricSet := List (String × Int)
abbrev Exts := List (String × MetricSet)
abbrev Hist := List (String × Exts)

instance : DecidableEq MetricSet :=
  fun a b => List.hasDecEq a b

instance : DecidableEq Exts :=
  fun a b => List.hasDecEq a b

instance : DecidableEq Hist :=
  fun a b => List.hasDecEq a b

/-- The literal field list of `merge_loc_histories.py` line 33. -/
def requiredFields : List String :=
  ["lines", "files", "additions", "deletions", "modifications", "repos"]

/-- One iteration of the field loop at line 33–34:
`merged[month][ext][field] += stats[field]`.  Both lookups raise
`KeyError` when the field is absent. -/
def mergeStatsStep (stats a : MetricSet) (f : String) : Except String MetricSet :=
  match alGet a f with
  | none => Except.error ("KeyError: " ++ f)
  | some x =>
    match alGet stats f with
    | none => Except.error ("KeyError: " ++ f)
    | some y => Except.ok (alSet a f (x + y))

/-- The `else` branch of the merge (lines 31–34): sum the six required
fields of `stats` into `acc`, in the order of the source's field list;
the loop stops at the first `KeyError`, which aborts the merge call. -/
def mergeStats (acc stats : MetricSet) : Except String MetricSet :=
  requiredFields.foldlM (mergeStatsStep stats) acc

/-- One iteration of the extension loop (lines 28–34): a
first-encountered extension is installed as-is
(`merged[month][ext] = stats`); a repeated one is summed with
`mergeStats`. -/
def mergeExtsStep (a : Exts) (p : String × MetricSet) : Except String Exts :=
  match alGet a p.1 with
  | none => Except.ok (alSet a p.1 p.2)
  | some cur => (mergeStats cur p.2).map (fun s => alSet a p.1 s)

/-- Lines 28–34: merge one month's extension dictionary `l` into the
accumulator's dictionary for that month. -/
def mergeExts (acc l : Exts) : Except String Exts :=
  l.foldlM mergeExtsStep acc

/-- One iteration of the month loop (lines 23–34):
`if month not in merged: merged[month] = {}` followed by the extension
loop is, at the level of the final value, "merge into the month's current
dictionary (empty when the month is new) and store the result". -/
def merge1Step (acc : Hist) (p : String × Exts) : Except String Hist :=
  (mergeExts ((alGet acc p.1).getD []) p.2).map (fun e => alSet acc p.1 e)

/-- Lines 23–34: merge one loaded history document `data` into `merged`. -/
def merge1 (merged data : Hist) : Except String Hist :=
  data.foldlM merge1Step merged

/-- `merge_loc_histories` (lines 6–36), over the list of already-loaded
JSON documents: fold every input into an initially empty accumulator.
A raised `KeyError` is modelled as `Except.error`; in that case `main`
never reaches its `json.dump`, so no output is written. -/
def merge_loc_histories (files : List Hist) : Except String Hist :=
  files.foldlM merge1 []

/-! ## Denotations used to state properties of the merge -/

/-- The MetricSet of history `h` at month `m`, extension `e`, if present. -/
def histGet (h : Hist) (m e : String) : Option MetricSet :=
  match alGet h m with
  | some ex => alGet ex e
  | none => none

/-- A metric value with the convention that an absent field reads 0
(used only to state sums; the code itself never defaults). -/
def msVal (s : MetricSet) (f : String) : Int :=
  (alGet s f).getD 0

/-- The metric value contributed by one history at `(m, e, f)`,
0 when the history lacks that (month, extension) pair. -/
def histVal (h : Hist) (m e f : String) : Int :=
  match histGet h m e with
  | some s => msVal s f
  | none => 0

/-- The total of field `f` at `(m, e)` over a list of input histories. -/
def listVal (H : List Hist) (m e f : String) : Int :=
  (H.map (fun h => histVal h m e f)).sum

/-- The MetricSet of the first input in which `(m, e)` occurs. -/
def firstOcc : List Hist → String → String → Option MetricSet
  | [], _, _ => none
  | h :: rest, m, e =>
    match histGet h m e with
    | some s => some s
    | none => firstOcc rest m e

/-- Structural soundness of a MetricSet as loaded from JSON: unique keys,
and every one of the six required fields present (extra keys allowed). -/
def MSok (s : MetricSet) : Prop :=
  (alKeys s).Nodup ∧ ∀ f ∈ requiredFields, (alGet s f).isSome

/-- Every extension entry of the month is an `MSok` MetricSet, keys unique. -/
def ExtsOk (l : Exts) : Prop :=
  (alKeys l).Nodup ∧ ∀ p ∈ l, MSok p.2

/-- Structural soundness of a loaded history document. -/
def HistOk (h : Hist) : Prop :=
  (alKeys h).Nodup ∧ ∀ p ∈ h, ExtsOk p.2

/-- A well-formed MetricSet in the sense of the spec's data model:
exactly the six required fields, nothing else. -/
def MSwf (s : MetricSet) : Prop :=
  (alKeys s).Perm requiredFields

/-- A well-formed history: unique keys at both levels and every
MetricSet carrying exactly the six required fields. -/
def HistWf (h : Hist) : Prop :=
  (alKeys h).Nodup ∧ ∀ p ∈ h, (alKeys p.2).Nodup ∧ ∀ q ∈ p.2, MSwf q.2

/-- Unique keys at both dictionary levels (every Python dict has unique
keys); no condition on the MetricSets themselves. -/
def HistNodupKeys (h : Hist) : Prop :=
  (alKeys h).Nodup ∧ ∀ p ∈ h, (alKeys p.2).Nodup

/-- Python `==` on merged history documents: dictionary equality, i.e.
the same months, the same extensions per month, and extensionally equal
MetricSets (key order is irrelevant to `==`). -/
def histEqv (a b : Hist) : Prop :=
  (∀ m, (alGet a m).isSome ↔ (alGet b m).isSome) ∧
  (∀ m e, (histGet a m e).isSome ↔ (histGet b m e).isSome) ∧
  (∀ m e s t, histGet a m e = some s → histGet b m e = some t →
    ∀ g, alGet s g = alGet t g)

/-! ## Heap model of the merge, for the aliasing claim

The value model above cannot talk about object identity, so here the same
lines 23–34 are embedded a second time with Python's heap made explicit at
the level that matters: each loaded MetricSet `dict` is a cell of a
`Store`, and histories refer to cells by index.  Line 30
(`merged[month][ext] = stats`) installs the *cell index* — a shared
reference, exactly as in CPython — and the `+=` of line 34 writes the
summed fields back into that cell, which is how a later merge step
mutates the first input's MetricSet in place.  Month-level dictionaries
are never shared (`merged[month] = {}` creates a fresh dict), so they
stay structural. -/

/-- A heap of MetricSet cells; histories point into it by index. -/
abbrev Store := List MetricSet

/-- One month's extension dictionary, with MetricSets by reference. -/
abbrev ExtsH := List (String × Nat)

/-- A history document with MetricSets by reference. -/
abbrev HistH := List (String × ExtsH)

/-- Dereference cell `i` (every valid input index is in range; an
out-of-range index reads as the empty dict, which is never relied on). -/
def stRead (st : Store) (i : Nat) : MetricSet :=
  (st.get? i).getD []

/-- Lines 31–34 in the heap model: sum `stats` into the MetricSet held in
cell `i`, field by field, writing each updated field back into the cell. -/
def mergeStatsH (st : Store) (i : Nat) (stats : MetricSet) : Except String Store :=
  requiredFields.foldlM
    (fun st f =>
      match alGet (stRead st i) f with
      | none => Except.error ("KeyError: " ++ f)
      | some x =>
        match alGet stats f with
        | none => Except.error ("KeyError: " ++ f)
        | some y => Except.ok (st.set i (alSet (stRead st i) f (x + y))))
    st

/-- One iteration of the extension loop in the heap model: a
first-encountered extension is bound to the *input's own cell* (line 30,
a shared reference, not a copy); a repeated one mutates the previously
installed cell via `mergeStatsH`. -/
def mergeExtsHStep (a : Store × ExtsH) (p : String × Nat) : Except String (Store × ExtsH) :=
  match alGet a.2 p.1 with
  | none => Except.ok (a.1, alSet a.2 p.1 p.2)
  | some i => (mergeStatsH a.1 i (stRead a.1 p.2)).map (fun st => (st, a.2))

/-- Lines 28–34 in the heap model. -/
def mergeExtsH (st : Store) (acc l : ExtsH) : Except String (Store × ExtsH) :=
  l.foldlM mergeExtsHStep (st, acc)

/-- One iteration of the month loop in the heap model.  Month-level
dictionaries are created fresh (`merged[month] = {}`), so only MetricSet
cells are ever shared. -/
def merge1HStep (a : Store × HistH) (p : String × ExtsH) : Except String (Store × HistH) :=
  (mergeExtsH a.1 ((alGet a.2 p.1).getD []) p.2).map (fun r => (r.1, alSet a.2 p.1 r.2))

/-- Lines 23–34 in the heap model, one input document. -/
def merge1H (st : Store) (merged data : HistH) : Except String (Store × HistH) :=
  data.foldlM merge1HStep (st, merged)

/-- One input document of the top-level loop in the heap model. -/
def mergeHStep (a : Store × HistH) (data : HistH) : Except String (Store × HistH) :=
  merge1H a.1 a.2 data

/-- `merge_loc_histories` in the heap model: the initial store holds the
MetricSets of the loaded input documents; the result pairs the final
store (same cells, possibly mutated) with the merged document. -/
def mergeH (st : Store) (files : List HistH) : Except String (Store × HistH) :=
  files.foldlM mergeHStep (st, [])

/-- The (month, extension) key pairs of one heap-model history. -/
def pairsOf (h : HistH) : List (String × String) :=
  h.flatMap (fun p => p.2.map (fun q => (p.1, q.1)))

/-- `(m, e)` is a key pair of `h`. -/
def hasPair (h : HistH) (m e : String) : Prop :=
  ∃ exts, alGet h m = some exts ∧ e ∈ alKeys exts

/-- Unique keys at both levels of a heap-model history. -/
def HistHNodup (h : HistH) : Prop :=
  (alKeys h).Nodup ∧ ∀ p ∈ h, (alKeys p.2).Nodup

/-! ## Identity matcher (`repo_scan.py` lines 33–83)

Python `re` is embedded denotationally, per pattern shape actually built
by `_build_patterns`.  Strings are treated at the ASCII level (GitHub
logins and the author strings of the claims are ASCII): `IGNORECASE`
becomes comparison of lowercased characters, `\b` is the usual word/
non-word boundary with `\w = [A-Za-z0-9_]`, and `.` matches any character
except a newline. -/

/-- Python `\w` at the ASCII level. -/
def isWordChar (c : Char) : Bool :=
  c.isAlphanum || c = '_'

/-- One token of a literal-and-dot regex. -/
inductive Tok : Type
  | lit (s : List Char)
  | dot

/-- Case-insensitive equality of character lists. -/
def ciEq (a b : List Char) : Bool :=
  a.map Char.toLower = b.map Char.toLower

/-- Match a token list at the start of `t`. -/
def matchToks : List Tok → List Char → Bool
  | [], _ => true
  | Tok.lit s :: rest, t =>
    ciEq (t.take s.length) s && matchToks rest (t.drop s.length)
  | Tok.dot :: rest, t =>
    match t with
    | [] => false
    | c :: t => decide (c ≠ '\n') && matchToks rest t

/-- `re.search`: match the token list at some position of `t`. -/
def searchToks (tk : List Tok) (t : List Char) : Bool :=
  (List.range (t.length + 1)).any (fun i => matchToks tk (t.drop i))

/-- Word-character status of position `i` of `t` (out of range: false). -/
def wordAt (t : List Char) (i : Nat) : Bool :=
  match t.get? i with
  | some c => isWordChar c
  | none => false

/-- Word-character status of the position before `i` (virtual non-word
character before the start of the string). -/
def prevWordAt (t : List Char) (i : Nat) : Bool :=
  if i = 0 then false else wordAt t (i - 1)

/-- `\b` at position `i` of `t`: exactly one neighbouring side is a word
character. -/
def bdryAt (t : List Char) (i : Nat) : Bool :=
  prevWordAt t i != wordAt t i

/-- `re.search` of `rf"\b{re.escape(s)}\b"` with `IGNORECASE`: a
case-insensitive occurrence of the literal `s` with `\b` on both sides. -/
def wordSearch (s t : List Char) : Bool :=
  (List.range (t.length + 1)).any
    (fun i => ciEq ((t.drop i).take s.length) s && bdryAt t i && bdryAt t (i + s.length))

/-- The four shapes of pattern `_build_patterns` compiles, with the
profile field each one was built from. -/
inductive Pat : Type
  /-- `re.compile(re.escape(email), IGNORECASE)`: a literal. -/
  | lit (s : String)
  /-- `re.compile(re.escape(local_part) + "@.*", IGNORECASE)`: the literal
  local part, `@`, then `.*` — which always matches (possibly empty), so a
  search succeeds exactly when `local_part + "@"` occurs. -/
  | localAt (s : String)
  /-- `re.compile(f"{login}@users.noreply.github.com", IGNORECASE)`: the
  login is interpolated *unescaped* and the dots of the domain are
  wildcards.  Valid GitHub logins contain no regex metacharacters, so the
  login segment is matched literally here. -/
  | noreply (login : String)
  /-- `re.compile(rf"\b{re.escape(s)}\b", IGNORECASE)`. -/
  | word (s : String)

/-- `pattern.search(text)` for each built pattern shape. -/
def patSearch : Pat → List Char → Bool
  | Pat.lit s, t => searchToks [Tok.lit s.toList] t
  | Pat.localAt s, t => searchToks [Tok.lit (s.toList ++ ['@'])] t
  | Pat.noreply l, t =>
    searchToks
      [Tok.lit (l.toList ++ "@users".toList), Tok.dot, Tok.lit "noreply".toList,
       Tok.dot, Tok.lit "github".toList, Tok.dot, Tok.lit "com".toList] t
  | Pat.word s, t => wordSearch s.toList t

/-- The GitHub user profile as consumed by `CommitIdentityMatcher`. -/
structure GitHubUser : Type where
  name : Option String
  login : String
  email : Option String

/-- `email.split('@')[0]`: the part before the first `@` (the whole
string when there is no `@`). -/
def localPart (e : String) : String :=
  String.mk (e.toList.takeWhile (fun c => c ≠ '@'))

/-- `name.split()`: split on whitespace runs, discarding empty pieces. -/
def splitName (s : String) : List String :=
  splitNameAux s.toList []
where
  /-- Accumulates the current word reversed. -/
  splitNameAux : List Char → List Char → List String
    | [], cur => if cur.isEmpty then [] else [String.mk cur.reverse]
    | c :: rest, cur =>
      if c.isWhitespace then
        if cur.isEmpty then splitNameAux rest []
        else String.mk cur.reverse :: splitNameAux rest []
      else splitNameAux rest (c :: cur)

/-- `CommitIdentityMatcher._build_patterns` (lines 42–76): the pattern
list, in construction order.  `github_user.name or ""` and
`github_user.email or ""` turn absent fields into `""`, and `if email:` /
`if name:` test non-emptiness. -/
def build_patterns (u : GitHubUser) : List Pat :=
  let name := u.name.getD ""
  let login := u.login
  let email := u.email.getD ""
  (if email ≠ "" then [Pat.lit email, Pat.localAt (localPart email)] else [])
    ++ [Pat.noreply login, Pat.word login]
    ++ (if name ≠ "" then
          Pat.word name ::
            ((splitName name).filter (fun part => part.length > 2)).map Pat.word
        else [])

/-- `CommitIdentityMatcher.is_users_commit` (lines 78–83): search every
pattern against `f"{commit_author} <{commit_email}>"`. -/
def is_users_commit (patterns : List Pat) (commit_author commit_email : String) : Bool :=
  let text := commit_author ++ " <" ++ commit_email ++ ">"
  patterns.any (fun p => patSearch p text.toList)

/-! ## Analysis dispatch and aggregation (`repo_scan.py` lines 113–289)

The external Rust analyzer `analyze_git_repo` and the clone subprocess
are collaborators outside this repository; they enter the model as
parameters: `az` is the analyzer (which may fail), and the clone stage's
outcome list `(path, succeeded)` is the input to the post-clone logic of
`process_all_repos`. -/

/-- `analyze_repo_commits` (lines 113–125): call the analyzer with the
plain pattern strings; any raised error is caught and becomes the empty
contribution `{}`. -/
def analyze_repo_commits (az : String → List String → Except String Hist)
    (patterns : List String) (path : String) : Hist :=
  match az path patterns with
  | Except.ok r => r
  | Except.error _ => []

/-- The six-zero default of the aggregation `defaultdict` (lines 271–274). -/
def zeroMS : MetricSet :=
  [("lines", 0), ("files", 0), ("additions", 0), ("deletions", 0),
   ("modifications", 0), ("repos", 0)]

/-- One step of the aggregation loop (lines 277–281):
`total_monthly_stats[month][ext][metric] += value`.  The two outer levels
default (defaultdict); the innermost dict is the plain six-key default,
so an unknown metric name raises `KeyError`. -/
def addMetric (agg : Hist) (m e f : String) (v : Int) : Except String Hist :=
  let exts := (alGet agg m).getD []
  let s := (alGet exts e).getD zeroMS
  match alGet s f with
  | some x => Except.ok (alSet agg m (alSet exts e (alSet s f (x + v))))
  | none => Except.error ("KeyError: " ++ f)

/-- Lines 271–287: sum every `(month, ext, metric, value)` of every
collected per-repository history into the defaultdict, then return the
months sorted (`sorted(total_monthly_stats.items())`). -/
def aggregateStats (l : List Hist) : Except String Hist :=
  (l.foldlM
      (fun (agg : Hist) (h : Hist) =>
        h.foldlM
          (fun (agg : Hist) (me : String × Exts) =>
            me.2.foldlM
              (fun (agg : Hist) (ee : String × MetricSet) =>
                ee.2.foldlM (fun agg fv => addMetric agg me.1 ee.1 fv.1 fv.2) agg)
              agg)
          agg)
      []).map
    (fun agg => agg.mergeSort (fun a b => a.1 ≤ b.1))

/-- The observable outcome of `process_all_repos` after the clone stage:
which paths were submitted to the analyzer pool, which per-repository
histories were collected (empty ones are dropped by `if repo_stats:`),
and the aggregation outcome. -/
structure RunResult : Type where
  dispatched : List String
  collected : List Hist
  aggregated : Except String Hist

/-- `process_all_repos` (lines 246–289), from the clone outcomes on: keep
the successfully cloned paths; when none remain, log the fatal
"No repositories were successfully cloned" and return `{}` *before* the
`ProcessPoolExecutor` block, so nothing is dispatched; otherwise submit
one `analyze_repo_commits` job per path, drop falsy (empty) results, and
aggregate. -/
def process_all_repos (az : String → List String → Except String Hist)
    (patterns : List String) (cloneResults : List (String × Bool)) : RunResult :=
  let repo_paths := (cloneResults.filter (fun r => r.2)).map (fun r => r.1)
  if repo_paths.length = 0 then
    ⟨[], [], Except.ok []⟩
  else
    let stats := repo_paths.map (analyze_repo_commits az patterns)
    let repo_stats_list := stats.filter (fun r => !r.isEmpty)
    ⟨repo_paths, repo_stats_list, aggregateStats repo_stats_list⟩

/-! ## Concrete example data for witnesses and counterexamples -/

/-- A MetricSet with all six required fields set to `v`. -/
def exMS (v : Int) : MetricSet :=
  [("lines", v), ("files", v), ("additions", v), ("deletions", v),
   ("modifications", v), ("repos", v)]

/-- A one-month, one-extension history. -/
def exH1 : Hist := [("2024-01", [("py", exMS 10)])]

/-- A two-month history sharing the `("2024-01", "py")` key with `exH1`. -/
def exH2 : Hist :=
  [("2024-01", [("py", exMS 5), ("rs", exMS 3)]), ("2024-02", [("py", exMS 1)])]

/-- A history whose MetricSet carries the six fields plus an extra key. -/
def exX1 : Hist := [("2024-01", [("py", exMS 10 ++ [("custom", 7)])])]

/-- Another history with the same pair and a different extra key value. -/
def exX2 : Hist := [("2024-01", [("py", exMS 5 ++ [("custom", 9)])])]

/-- A history whose single MetricSet lacks the `repos` field. -/
def exBad : Hist :=
  [("2024-01", [("py", [("lines", 1), ("files", 1), ("additions", 1),
    ("deletions", 1), ("modifications", 1)])])]

/-- A two-cell store: the loaded MetricSets of two one-entry inputs. -/
def exStore : Store := [exMS 1, exMS 2]

/-- Heap-model input referring to cell 0. -/
def exAH : HistH := [("2024-01", [(".py", 0)])]

/-- Heap-model input referring to cell 1, sharing the key pair of `exAH`. -/
def exBH : HistH := [("2024-01", [(".py", 1)])]

/-- Heap-model inputs with disjoint key pairs. -/
def exCH : HistH := [("2024-02", [(".py", 1)])]

/-- A profile whose login is the single character `-`. -/
def exDashUser : GitHubUser := ⟨none, "-", none⟩

/-- An ordinary profile with no public name or email. -/
def exAlice : GitHubUser := ⟨none, "alice", none⟩

/-- An analyzer stub that always fails. -/
def exAzFail : String → List String → Except String Hist :=
  fun _ _ => Except.error "boom"

/-- An analyzer stub returning `exH1` except on path `"bad"`. -/
def exAzMixed : String → List String → Except String Hist :=
  fun p _ => if p = "bad" then Except.error "boom" else Except.ok exH1

/-! ## Association-list lemmas -/

theorem alGet_alSet_self {β : Type} (l : List (String × β)) (k : String) (v : β) :
    alGet (alSet l k v) k = some v := by
  induction l with
  | nil => simp [alGet, alSet]
  | cons p rest ih =>
    by_cases h : p.1 = k <;> simp [alGet, alSet, h, ih]

theorem alGet_alSet_ne {β : Type} (l : List (String × β)) (k k' : String) (v : β)
    (h : k' ≠ k) : alGet (alSet l k v) k' = alGet l k' := by
  have hk : ¬(k = k') := fun h' => h h'.symm
  induction l with
  | nil => simp [alGet, alSet, hk]
  | cons p rest ih =>
    by_cases hp : p.1 = k
    · have hp' : ¬(p.1 = k') := by rw [hp]; exact hk
      simp [alGet, alSet, hp, hk, hp']
    · by_cases hp' : p.1 = k' <;> simp [alGet, alSet, hp, hp', h, ih]

theorem alGet_eq_none_iff {β : Type} (l : List (String × β)) (k : String) :
    alGet l k = none ↔ k ∉ alKeys l := by
  induction l with
  | nil => simp [alGet, alKeys]
  | cons p rest ih =>
    by_cases h : p.1 = k
    · simp [alGet, alKeys, h]
    · simp only [alGet, alKeys, List.map_cons, List.mem_cons, h, if_neg h]
      rw [show alKeys rest = rest.map Prod.fst from rfl] at ih
      constructor
      · intro hn
        rcases ih.mp hn with _
        intro hc
        rcases hc with hc | hc
        · exact h hc.symm
        · exact ih.mp hn hc
      · intro hc
        exact ih.mpr (fun hm => hc (Or.inr hm))

theorem alGet_isSome_iff {β : Type} (l : List (String × β)) (k : String) :
    (alGet l k).isSome ↔ k ∈ alKeys l := by
  constructor
  · intro h
    by_contra hk
    rw [(alGet_eq_none_iff l k).mpr hk] at h
    simp at h
  · intro h
    cases hc : alGet l k with
    | none => exact absurd ((alGet_eq_none_iff l k).mp hc) (by simp [h])
    | some v => rfl

theorem alKeys_alSet_of_mem {β : Type} (l : List (String × β)) (k : String) (v : β)
    (h : k ∈ alKeys l) : alKeys (alSet l k v) = alKeys l := by
  induction l with
  | nil => simp [alKeys] at h
  | cons p rest ih =>
    by_cases hp : p.1 = k
    · simp [alSet, alKeys, hp]
    · have hmem : k ∈ alKeys rest := by
        rcases (by simpa [alKeys] using h : k = p.1 ∨ k ∈ rest.map Prod.fst) with h' | h'
        · exact absurd h'.symm hp
        · simpa [alKeys] using h'
      have := ih hmem
      simp only [alSet, if_neg hp, alKeys, List.map_cons]
      rw [show alKeys (alSet rest k v) = (alSet rest k v).map Prod.fst from rfl] at this
      rw [show alKeys rest = rest.map Prod.fst from rfl] at this
      rw [this]

theorem alSet_of_not_mem {β : Type} (l : List (String × β)) (k : String) (v : β)
    (h : alGet l k = none) : alSet l k v = l ++ [(k, v)] := by
  induction l with
  | nil => simp [alSet]
  | cons p rest ih =>
    by_cases hp : p.1 = k
    · simp [alGet, hp] at h
    · simp only [alGet, if_neg hp] at h
      simp [alSet, hp, ih h]

theorem mem_of_alGet_eq_some {β : Type} (l : List (String × β)) (k : String) (v : β)
    (h : alGet l k = some v) : (k, v) ∈ l := by
  induction l with
  | nil => simp [alGet] at h
  | cons p rest ih =>
    by_cases hp : p.1 = k
    · simp only [alGet, if_pos hp, Option.some.injEq] at h
      have : p = (k, v) := by
        cases p
        simp only [Prod.mk.injEq]
        exact ⟨hp, h⟩
      rw [← this]
      exact List.mem_cons_self _ _
    · simp only [alGet, if_neg hp] at h
      exact List.mem_cons_of_mem _ (ih h)

theorem mem_alSet {β : Type} (l : List (String × β)) (k : String) (v : β) :
    ∀ p ∈ alSet l k v, p ∈ l ∨ p = (k, v) := by
  induction l with
  | nil => simp [alSet]
  | cons q rest ih =>
    intro p hp
    by_cases hq : q.1 = k
    · simp [alSet, hq] at hp
      rcases hp with h | h
      · right; simp [h]
      · left; exact List.mem_cons_of_mem _ h
    · simp [alSet, hq] at hp
      rcases hp with h | h
      · left; simp [h]
      · rcases ih p h with h' | h'
        · left; exact List.mem_cons_of_mem _ h'
        · right; exact h'

theorem alKeys_alSet_of_not_mem {β : Type} (l : List (String × β)) (k : String) (v : β)
    (h : k ∉ alKeys l) : alKeys (alSet l k v) = alKeys l ++ [k] := by
  rw [alSet_of_not_mem l k v ((alGet_eq_none_iff l k).mpr h)]
  simp [alKeys]

theorem alGet_append {β : Type} (l₁ l₂ : List (String × β)) (k : String) :
    alGet (l₁ ++ l₂) k = ((alGet l₁ k).map some).getD (alGet l₂ k) := by
  induction l₁ with
  | nil => simp [alGet]
  | cons p rest ih =>
    by_cases hp : p.1 = k <;> simp [alGet, hp, ih]

/-! ## `Except` fold plumbing -/

theorem exBind_ok {α β : Type} (a : α) (f : α → Except String β) :
    (Except.ok a >>= f) = f a := rfl

theorem exBind_error {α β : Type} (e : String) (f : α → Except String β) :
    ((Except.error e : Except String α) >>= f) = Except.error e := rfl

theorem exMap_ok {α β : Type} (a : α) (f : α → β) :
    (Except.ok a : Except String α).map f = Except.ok (f a) := rfl

theorem exMap_error {α β : Type} (e : String) (f : α → β) :
    (Except.error e : Except String α).map f = Except.error e := rfl

theorem exFoldlM_nil {σ α : Type} (f : σ → α → Except String σ) (b : σ) :
    List.foldlM f b [] = Except.ok b := rfl

theorem exFoldlM_cons {σ α : Type} (f : σ → α → Except String σ) (b : σ) (a : α)
    (l : List α) :
    List.foldlM f b (a :: l) = (f b a >>= fun x => List.foldlM f x l) := rfl

/-! ## Behaviour of the field-summing loop (`mergeStats`) -/

theorem mergeStatsFold_ok (stats : MetricSet) (L : List String) :
    ∀ acc : MetricSet, L.Nodup →
      (∀ f ∈ L, (alGet acc f).isSome ∧ (alGet stats f).isSome) →
      ∃ r, List.foldlM (mergeStatsStep stats) acc L = Except.ok r ∧
        alKeys r = alKeys acc ∧
        (∀ g, g ∉ L → alGet r g = alGet acc g) ∧
        (∀ f ∈ L, alGet r f = some (msVal acc f + msVal stats f)) := by
  induction L with
  | nil =>
    intro acc _ _
    exact ⟨acc, rfl, rfl, fun g _ => rfl, fun f hf => absurd hf (List.not_mem_nil f)⟩
  | cons f0 L ih =>
    intro acc hnd hsome
    obtain ⟨hx, hy⟩ := hsome f0 (List.mem_cons_self f0 L)
    obtain ⟨x, hxe⟩ := Option.isSome_iff_exists.mp hx
    obtain ⟨y, hye⟩ := Option.isSome_iff_exists.mp hy
    have hstep : mergeStatsStep stats acc f0 = Except.ok (alSet acc f0 (x + y)) := by
      simp [mergeStatsStep, hxe, hye]
    have hf0L : f0 ∉ L := (List.nodup_cons.mp hnd).1
    have hndL : L.Nodup := (List.nodup_cons.mp hnd).2
    set acc' := alSet acc f0 (x + y) with hacc'
    have hsome' : ∀ f ∈ L, (alGet acc' f).isSome ∧ (alGet stats f).isSome := by
      intro f hf
      have hne : f ≠ f0 := fun h => hf0L (h ▸ hf)
      rw [hacc', alGet_alSet_ne acc f0 f (x + y) hne]
      exact hsome f (List.mem_cons_of_mem _ hf)
    obtain ⟨r, hr, hkeys, huntouched, hsummed⟩ := ih acc' hndL hsome'
    refine ⟨r, ?_, ?_, ?_, ?_⟩
    · rw [exFoldlM_cons, hstep, exBind_ok, hr]
    · rw [hkeys, hacc']
      exact alKeys_alSet_of_mem acc f0 (x + y)
        ((alGet_isSome_iff acc f0).mp (by simp [hxe]))
    · intro g hg
      have hgf0 : g ≠ f0 := fun h => hg (h ▸ List.mem_cons_self f0 L)
      have hgL : g ∉ L := fun h => hg (List.mem_cons_of_mem _ h)
      rw [huntouched g hgL, hacc', alGet_alSet_ne acc f0 g (x + y) hgf0]
    · intro f hf
      rcases List.mem_cons.mp hf with hfe | hfL
      · subst hfe
        rw [huntouched f hf0L, hacc', alGet_alSet_self, msVal, msVal, hxe, hye]
        rfl
      · have hne : f ≠ f0 := fun h => hf0L (h ▸ hfL)
        rw [hsummed f hfL]
        have : msVal acc' f = msVal acc f := by
          rw [msVal, msVal, hacc', alGet_alSet_ne acc f0 f (x + y) hne]
        rw [this]

theorem mergeStatsFold_error (stats : MetricSet) (L : List String) :
    ∀ acc : MetricSet,
      (∃ f ∈ L, alGet acc f = none ∨ alGet stats f = none) →
      ∃ err, List.foldlM (mergeStatsStep stats) acc L = Except.error err := by
  induction L with
  | nil =>
    intro acc h
    obtain ⟨f, hf, _⟩ := h
    exact absurd hf (List.not_mem_nil f)
  | cons f0 L ih =>
    intro acc h
    cases hxe : alGet acc f0 with
    | none =>
      refine ⟨"KeyError: " ++ f0, ?_⟩
      rw [exFoldlM_cons, show mergeStatsStep stats acc f0 = Except.error ("KeyError: " ++ f0)
        from by simp [mergeStatsStep, hxe], exBind_error]
    | some x =>
      cases hye : alGet stats f0 with
      | none =>
        refine ⟨"KeyError: " ++ f0, ?_⟩
        rw [exFoldlM_cons, show mergeStatsStep stats acc f0 = Except.error ("KeyError: " ++ f0)
          from by simp [mergeStatsStep, hxe, hye], exBind_error]
      | some y =>
        obtain ⟨f, hf, hmiss⟩ := h
        have hfL : f ∈ L := by
          rcases List.mem_cons.mp hf with hfe | hfL
          · subst hfe
            rcases hmiss with hm | hm
            · rw [hxe] at hm; exact absurd hm (by simp)
            · rw [hye] at hm; exact absurd hm (by simp)
          · exact hfL
        have hne : f ≠ f0 := by
          intro h'
          subst h'
          rcases hmiss with hm | hm
          · rw [hxe] at hm; exact absurd hm (by simp)
          · rw [hye] at hm; exact absurd hm (by simp)
        have hmiss' : alGet (alSet acc f0 (x + y)) f = none ∨ alGet stats f = none := by
          rcases hmiss with hm | hm
          · left; rw [alGet_alSet_ne acc f0 f (x + y) hne]; exact hm
          · right; exact hm
        obtain ⟨err, herr⟩ := ih (alSet acc f0 (x + y)) ⟨f, hfL, hmiss'⟩
        refine ⟨err, ?_⟩
        rw [exFoldlM_cons, show mergeStatsStep stats acc f0 = Except.ok (alSet acc f0 (x + y))
          from by simp [mergeStatsStep, hxe, hye], exBind_ok, herr]

/-- `mergeStats` on two structurally sound MetricSets: succeeds, keeps
the accumulator's keys (hence its extra keys and their values), and sums
each required field. -/
theorem mergeStats_ok (acc stats : MetricSet) (ha : MSok acc) (hs : MSok stats) :
    ∃ r, mergeStats acc stats = Except.ok r ∧
      alKeys r = alKeys acc ∧
      (∀ g, g ∉ requiredFields → alGet r g = alGet acc g) ∧
      (∀ f ∈ requiredFields, alGet r f = some (msVal acc f + msVal stats f)) := by
  have hnd : requiredFields.Nodup := by decide
  exact mergeStatsFold_ok stats requiredFields acc hnd
    (fun f hf => ⟨ha.2 f hf, hs.2 f hf⟩)

/-- `mergeStats` raises `KeyError` whenever either side lacks one of the
six required fields. -/
theorem mergeStats_error (acc stats : MetricSet)
    (h : ∃ f ∈ requiredFields, alGet acc f = none ∨ alGet stats f = none) :
    ∃ err, mergeStats acc stats = Except.error err :=
  mergeStatsFold_error stats requiredFields acc h

/-! ## Behaviour of the extension loop (`mergeExts`) -/

theorem alKeys_nodup_alSet {β : Type} (l : List (String × β)) (k : String) (v : β)
    (h : (alKeys l).Nodup) : (alKeys (alSet l k v)).Nodup := by
  by_cases hk : k ∈ alKeys l
  · rw [alKeys_alSet_of_mem l k v hk]
    exact h
  · rw [alKeys_alSet_of_not_mem l k v hk]
    simp [List.nodup_append, h, hk]

theorem ExtsOk_alSet {acc : Exts} {k : String} {v : MetricSet}
    (ha : ExtsOk acc) (hv : MSok v) : ExtsOk (alSet acc k v) := by
  refine ⟨alKeys_nodup_alSet acc k v ha.1, ?_⟩
  intro p hp
  rcases mem_alSet acc k v p hp with h | h
  · exact ha.2 p h
  · rw [h]
    exact hv

theorem MSok_of_mem_ExtsOk {l : Exts} {e : String} {s : MetricSet}
    (hl : ExtsOk l) (h : alGet l e = some s) : MSok s :=
  hl.2 (e, s) (mem_of_alGet_eq_some l e s h)

/-- Full behaviour of the extension loop on structurally sound inputs:
it succeeds, extensions occurring on only one side pass through
unchanged (as the very same value), and shared extensions come out with
the accumulator's key list (so the accumulator's extra keys and their
values) and field-by-field sums. -/
theorem mergeExtsFold_spec (l : Exts) :
    ∀ acc : Exts, ExtsOk acc → (alKeys l).Nodup → (∀ p ∈ l, MSok p.2) →
      ∃ E, List.foldlM mergeExtsStep acc l = Except.ok E ∧ ExtsOk E ∧
        (∀ e, (alGet E e).isSome ↔ ((alGet acc e).isSome ∨ (alGet l e).isSome)) ∧
        (∀ e, alGet l e = none → alGet E e = alGet acc e) ∧
        (∀ e, alGet acc e = none → alGet E e = alGet l e) ∧
        (∀ e sa t, alGet acc e = some sa → alGet l e = some t →
          ∃ s, alGet E e = some s ∧ alKeys s = alKeys sa ∧
            (∀ g, g ∉ requiredFields → alGet s g = alGet sa g) ∧
            (∀ f ∈ requiredFields, alGet s f = some (msVal sa f + msVal t f))) := by
  induction l with
  | nil =>
    intro acc ha _ _
    refine ⟨acc, rfl, ha, ?_, fun e _ => rfl, ?_, ?_⟩
    · intro e
      simp [alGet]
    · intro e he
      rw [he]
      simp [alGet]
    · intro e sa t _ ht
      simp [alGet] at ht
  | cons q rest ih =>
    intro acc ha hnd hok
    obtain ⟨k, v⟩ := q
    have hkrest : alGet rest k = none :=
      (alGet_eq_none_iff rest k).mpr (by simpa [alKeys] using (List.nodup_cons.mp hnd).1)
    have hndrest : (alKeys rest).Nodup := by
      have := (List.nodup_cons.mp hnd).2
      simpa [alKeys] using this
    have hvok : MSok v := hok (k, v) (List.mem_cons_self _ _)
    have hokrest : ∀ p ∈ rest, MSok p.2 := fun p hp => hok p (List.mem_cons_of_mem _ hp)
    cases hk : alGet acc k with
    | none =>
      have hstep : mergeExtsStep acc (k, v) = Except.ok (alSet acc k v) := by
        simp [mergeExtsStep, hk]
      set acc' := alSet acc k v with hacc'
      have ha' : ExtsOk acc' := ExtsOk_alSet ha hvok
      obtain ⟨E, hE, hEok, hpres, hlnone, haccnone, hboth⟩ := ih acc' ha' hndrest hokrest
      have hacck : alGet acc' k = some v := by rw [hacc']; exact alGet_alSet_self acc k v
      refine ⟨E, ?_, hEok, ?_, ?_, ?_, ?_⟩
      · rw [exFoldlM_cons, hstep, exBind_ok, hE]
      · intro e
        by_cases he : e = k
        · subst he
          rw [hlnone e hkrest, hacck, hk]
          simp [alGet]
        · have : alGet acc' e = alGet acc e := by
            rw [hacc']
            exact alGet_alSet_ne acc k e v (fun h => he h)
          rw [hpres e, this]
          simp [alGet, show ¬(k = e) from fun h => he h.symm]
      · intro e he
        have hke : ¬(k = e) := by
          intro h
          subst h
          simp [alGet] at he
        have herest : alGet rest e = none := by
          simpa [alGet, hke] using he
        rw [hlnone e herest, hacc', alGet_alSet_ne acc k e v (fun h => hke h.symm)]
      · intro e he
        by_cases hke : e = k
        · subst hke
          rw [hlnone e hkrest, hacck]
          simp [alGet]
        · have : alGet acc' e = none := by
            rw [hacc', alGet_alSet_ne acc k e v (fun h => hke h)]
            exact he
          rw [haccnone e this]
          simp [alGet, show ¬(k = e) from fun h => hke h.symm]
      · intro e sa t hsa ht
        by_cases hke : e = k
        · subst hke
          rw [hk] at hsa
          exact absurd hsa (by simp)
        · have hsa' : alGet acc' e = some sa := by
            rw [hacc', alGet_alSet_ne acc k e v (fun h => hke h)]
            exact hsa
          have ht' : alGet rest e = some t := by
            simpa [alGet, show ¬(k = e) from fun h => hke h.symm] using ht
          exact hboth e sa t hsa' ht'
    | some cur =>
      have hcurok : MSok cur := MSok_of_mem_ExtsOk ha hk
      obtain ⟨s, hs, hskeys, hsuntouched, hssum⟩ := mergeStats_ok cur v hcurok hvok
      have hstep : mergeExtsStep acc (k, v) = Except.ok (alSet acc k s) := by
        simp [mergeExtsStep, hk, hs, exMap_ok]
      have hsok : MSok s := by
        refine ⟨hskeys ▸ hcurok.1, ?_⟩
        intro f hf
        rw [hssum f hf]
        rfl
      set acc' := alSet acc k s with hacc'
      have ha' : ExtsOk acc' := ExtsOk_alSet ha hsok
      obtain ⟨E, hE, hEok, hpres, hlnone, haccnone, hboth⟩ := ih acc' ha' hndrest hokrest
      have hacck : alGet acc' k = some s := by rw [hacc']; exact alGet_alSet_self acc k s
      refine ⟨E, ?_, hEok, ?_, ?_, ?_, ?_⟩
      · rw [exFoldlM_cons, hstep, exBind_ok, hE]
      · intro e
        by_cases he : e = k
        · subst he
          rw [hlnone e hkrest, hacck, hk]
          simp [alGet]
        · have : alGet acc' e = alGet acc e := by
            rw [hacc']
            exact alGet_alSet_ne acc k e s (fun h => he h)
          rw [hpres e, this]
          simp [alGet, show ¬(k = e) from fun h => he h.symm]
      · intro e he
        have hke : ¬(k = e) := by
          intro h
          subst h
          simp [alGet] at he
        have herest : alGet rest e = none := by
          simpa [alGet, hke] using he
        rw [hlnone e herest, hacc', alGet_alSet_ne acc k e s (fun h => hke h.symm)]
      · intro e he
        by_cases hke : e = k
        · subst hke
          rw [hk] at he
          exact absurd he (by simp)
        · have : alGet acc' e = none := by
            rw [hacc', alGet_alSet_ne acc k e s (fun h => hke h)]
            exact he
          rw [haccnone e this]
          simp [alGet, show ¬(k = e) from fun h => hke h.symm]
      · intro e sa t hsa ht
        by_cases hke : e = k
        · subst hke
          rw [hk] at hsa
          have hsacur : sa = cur := by
            injection hsa with h
            exact h.symm
          have htv : t = v := by
            simp [alGet] at ht
            exact ht.symm
          subst hsacur
          subst htv
          refine ⟨s, ?_, hskeys, hsuntouched, hssum⟩
          rw [hlnone e hkrest, hacck]
        · have hsa' : alGet acc' e = some sa := by
            rw [hacc', alGet_alSet_ne acc k e s (fun h => hke h)]
            exact hsa
          have ht' : alGet rest e = some t := by
            simpa [alGet, show ¬(k = e) from fun h => hke h.symm] using ht
          exact hboth e sa t hsa' ht'

/-! ## Behaviour of the month loop (`merge1`) -/

theorem HistOk_alSet {acc : Hist} {k : String} {v : Exts}
    (ha : HistOk acc) (hv : ExtsOk v) : HistOk (alSet acc k v) := by
  refine ⟨alKeys_nodup_alSet acc k v ha.1, ?_⟩
  intro p hp
  rcases mem_alSet acc k v p hp with h | h
  · exact ha.2 p h
  · rw [h]
    exact hv

theorem ExtsOk_of_mem_HistOk {h : Hist} {m : String} {ex : Exts}
    (hh : HistOk h) (hm : alGet h m = some ex) : ExtsOk ex :=
  hh.2 (m, ex) (mem_of_alGet_eq_some h m ex hm)

/-- Full behaviour of merging one sound document into a sound
accumulator: it succeeds; months and (month, extension) pairs are the
union of the two sides; a pair present on only one side passes through
as the very same MetricSet value, and a shared pair is summed
field-by-field, keeping the accumulator's key list. -/
theorem merge1Fold_spec (data : Hist) :
    ∀ acc : Hist, HistOk acc → (alKeys data).Nodup → (∀ p ∈ data, ExtsOk p.2) →
      ∃ R, List.foldlM merge1Step acc data = Except.ok R ∧ HistOk R ∧
        (∀ m, (alGet R m).isSome ↔ ((alGet acc m).isSome ∨ (alGet data m).isSome)) ∧
        (∀ m e, (histGet R m e).isSome ↔
          ((histGet acc m e).isSome ∨ (histGet data m e).isSome)) ∧
        (∀ m e, histGet data m e = none → histGet R m e = histGet acc m e) ∧
        (∀ m e, histGet acc m e = none → histGet R m e = histGet data m e) ∧
        (∀ m e sa t, histGet acc m e = some sa → histGet data m e = some t →
          ∃ s, histGet R m e = some s ∧ alKeys s = alKeys sa ∧
            (∀ g, g ∉ requiredFields → alGet s g = alGet sa g) ∧
            (∀ f ∈ requiredFields, alGet s f = some (msVal sa f + msVal t f))) := by
  induction data with
  | nil =>
    intro acc ha _ _
    refine ⟨acc, rfl, ha, ?_, ?_, fun m e _ => rfl, ?_, ?_⟩
    · intro m
      simp [alGet]
    · intro m e
      simp [histGet, alGet]
    · intro m e he
      rw [he]
      simp [histGet, alGet]
    · intro m e sa t _ ht
      simp [histGet, alGet] at ht
  | cons q rest ih =>
    intro acc ha hnd hok
    obtain ⟨k, exts⟩ := q
    have hkrest : alGet rest k = none :=
      (alGet_eq_none_iff rest k).mpr (by simpa [alKeys] using (List.nodup_cons.mp hnd).1)
    have hrestknone : ∀ e, histGet rest k e = none := by
      intro e
      simp [histGet, hkrest]
    have hndrest : (alKeys rest).Nodup := by
      have := (List.nodup_cons.mp hnd).2
      simpa [alKeys] using this
    have hextsok : ExtsOk exts := hok (k, exts) (List.mem_cons_self _ _)
    have hokrest : ∀ p ∈ rest, ExtsOk p.2 := fun p hp => hok p (List.mem_cons_of_mem _ hp)
    have hconsk : ∀ e, histGet ((k, exts) :: rest) k e = alGet exts e := by
      intro e
      simp [histGet, alGet]
    have hconsm : ∀ m e, m ≠ k → histGet ((k, exts) :: rest) m e = histGet rest m e := by
      intro m e hm
      simp [histGet, alGet, show ¬(k = m) from fun h => hm h.symm]
    set cur := (alGet acc k).getD [] with hcurdef
    have hcurok : ExtsOk cur := by
      rw [hcurdef]
      cases hk : alGet acc k with
      | none => exact ⟨List.nodup_nil, fun p hp => absurd hp (List.not_mem_nil p)⟩
      | some c =>
        simpa using ExtsOk_of_mem_HistOk ha hk
    have hcurget : ∀ e, alGet cur e = histGet acc k e := by
      intro e
      rw [hcurdef, histGet]
      cases hk : alGet acc k with
      | none => simp [alGet]
      | some c => simp
    obtain ⟨E, hE, hEok, hEpres, hElnone, hEaccnone, hEboth⟩ :=
      mergeExtsFold_spec exts cur hcurok hextsok.1 hextsok.2
    have hstep : merge1Step acc (k, exts) = Except.ok (alSet acc k E) := by
      rw [merge1Step]
      rw [show mergeExts ((alGet acc k).getD []) exts = Except.ok E from hE]
      rfl
    set acc' := alSet acc k E with hacc'
    have ha' : HistOk acc' := HistOk_alSet ha hEok
    have hacc'k : alGet acc' k = some E := by rw [hacc']; exact alGet_alSet_self acc k E
    have hacc'm : ∀ m, m ≠ k → alGet acc' m = alGet acc m := by
      intro m hm
      rw [hacc']
      exact alGet_alSet_ne acc k m E hm
    have hacc'kpair : ∀ e, histGet acc' k e = alGet E e := by
      intro e
      simp [histGet, hacc'k]
    have hacc'mpair : ∀ m e, m ≠ k → histGet acc' m e = histGet acc m e := by
      intro m e hm
      simp [histGet, hacc'm m hm]
    obtain ⟨R, hR, hRok, hRmonth, hRpair, hRlnone, hRaccnone, hRboth⟩ :=
      ih acc' ha' hndrest hokrest
    have hRk : ∀ e, histGet R k e = alGet E e := by
      intro e
      rw [hRlnone k e (hrestknone e), hacc'kpair e]
    refine ⟨R, ?_, hRok, ?_, ?_, ?_, ?_, ?_⟩
    · rw [exFoldlM_cons, hstep, exBind_ok, hR]
    · intro m
      by_cases hm : m = k
      · subst hm
        rw [hRmonth m]
        simp [hacc'k, alGet]
      · rw [hRmonth m, hacc'm m hm]
        simp [alGet, show ¬(k = m) from fun h => hm h.symm]
    · intro m e
      by_cases hm : m = k
      · subst hm
        have := hEpres e
        rw [hRpair m e, hacc'kpair, hrestknone e, hconsk e]
        rw [hcurget e] at this
        simpa using this
      · rw [hRpair m e, hacc'mpair m e hm, hconsm m e hm]
    · intro m e he
      by_cases hm : m = k
      · subst hm
        rw [hconsk e] at he
        rw [hRk e, hElnone e he, hcurget e]
      · rw [hconsm m e hm] at he
        rw [hRlnone m e he, hacc'mpair m e hm]
    · intro m e he
      by_cases hm : m = k
      · subst hm
        have : alGet cur e = none := by rw [hcurget e, he]
        rw [hRk e, hEaccnone e this, hconsk e]
      · have : histGet acc' m e = none := by rw [hacc'mpair m e hm, he]
        rw [hRaccnone m e this, hconsm m e hm]
    · intro m e sa t hsa ht
      by_cases hm : m = k
      · subst hm
        rw [hconsk e] at ht
        have hcursa : alGet cur e = some sa := by rw [hcurget e, hsa]
        obtain ⟨s, hsE, hskeys, hsuntouched, hssum⟩ := hEboth e sa t hcursa ht
        refine ⟨s, ?_, hskeys, hsuntouched, hssum⟩
        rw [hRk e, hsE]
      · rw [hconsm m e hm] at ht
        have hsa' : histGet acc' m e = some sa := by rw [hacc'mpair m e hm, hsa]
        exact hRboth m e sa t hsa' ht

/-! ## Behaviour of the whole merge (`merge_loc_histories`) -/

theorem MSok_of_histGet {h : Hist} {m e : String} {s : MetricSet}
    (hh : HistOk h) (hs : histGet h m e = some s) : MSok s := by
  rw [histGet] at hs
  cases hk : alGet h m with
  | none => rw [hk] at hs; exact absurd hs (by simp)
  | some ex =>
    rw [hk] at hs
    exact MSok_of_mem_ExtsOk (ExtsOk_of_mem_HistOk hh hk) hs

theorem listVal_cons (h : Hist) (H : List Hist) (m e f : String) :
    listVal (h :: H) m e f = histVal h m e f + listVal H m e f := by
  simp [listVal]

theorem listVal_nil (m e f : String) : listVal [] m e f = 0 := rfl

theorem merge1_eq_foldlM (merged data : Hist) :
    merge1 merged data = List.foldlM merge1Step merged data := rfl

/-- Full behaviour of folding a list of sound documents into a sound
accumulator.  A pair absent from every input passes through from the
accumulator unchanged; a pair present in the accumulator keeps its key
list and has each required field increased by the inputs' total; a pair
absent from the accumulator but present in some input takes the key list
and extra keys of its *first* occurrence and its required fields are the
inputs' totals. -/
theorem mergeFold_spec (H : List Hist) :
    ∀ acc : Hist, HistOk acc → (∀ h ∈ H, HistOk h) →
      ∃ R, List.foldlM merge1 acc H = Except.ok R ∧ HistOk R ∧
        (∀ m, (alGet R m).isSome ↔
          ((alGet acc m).isSome ∨ ∃ h ∈ H, (alGet h m).isSome)) ∧
        (∀ m e, (histGet R m e).isSome ↔
          ((histGet acc m e).isSome ∨ ∃ h ∈ H, (histGet h m e).isSome)) ∧
        (∀ m e, (∀ h ∈ H, histGet h m e = none) → histGet R m e = histGet acc m e) ∧
        (∀ m e sa, histGet acc m e = some sa →
          ∃ s, histGet R m e = some s ∧ alKeys s = alKeys sa ∧
            (∀ g, g ∉ requiredFields → alGet s g = alGet sa g) ∧
            (∀ f ∈ requiredFields, alGet s f = some (msVal sa f + listVal H m e f))) ∧
        (∀ m e, histGet acc m e = none → ∀ s, histGet R m e = some s →
          ∃ s0, firstOcc H m e = some s0 ∧ alKeys s = alKeys s0 ∧
            (∀ g, g ∉ requiredFields → alGet s g = alGet s0 g) ∧
            (∀ f ∈ requiredFields, alGet s f = some (listVal H m e f))) := by
  induction H with
  | nil =>
    intro acc ha _
    refine ⟨acc, rfl, ha, ?_, ?_, fun m e _ => rfl, ?_, ?_⟩
    · intro m
      simp
    · intro m e
      simp
    · intro m e sa hsa
      have hok : MSok sa := MSok_of_histGet ha hsa
      refine ⟨sa, hsa, rfl, fun g _ => rfl, ?_⟩
      intro f hf
      obtain ⟨x, hx⟩ := Option.isSome_iff_exists.mp (hok.2 f hf)
      rw [hx, listVal_nil, msVal, hx]
      simp
    · intro m e hnone s hs
      rw [hnone] at hs
      exact absurd hs (by simp)
  | cons h H ih =>
    intro acc ha hall
    have hh : HistOk h := hall h (List.mem_cons_self _ _)
    have hallH : ∀ h' ∈ H, HistOk h' := fun h' hh' => hall h' (List.mem_cons_of_mem _ hh')
    obtain ⟨R1, hR1, hR1ok, hR1month, hR1pair, hR1lnone, hR1accnone, hR1both⟩ :=
      merge1Fold_spec h acc ha hh.1 hh.2
    obtain ⟨R, hR, hRok, hRmonth, hRpair, hRpass, hRaccsome, hRaccnone'⟩ := ih R1 hR1ok hallH
    refine ⟨R, ?_, hRok, ?_, ?_, ?_, ?_, ?_⟩
    · rw [exFoldlM_cons, merge1_eq_foldlM acc h, hR1, exBind_ok, hR]
    · intro m
      rw [hRmonth m, hR1month m, List.exists_mem_cons_iff]
      tauto
    · intro m e
      rw [hRpair m e, hR1pair m e, List.exists_mem_cons_iff]
      tauto
    · intro m e hnone
      have hhm : histGet h m e = none := hnone h (List.mem_cons_self _ _)
      have hHm : ∀ h' ∈ H, histGet h' m e = none :=
        fun h' hh' => hnone h' (List.mem_cons_of_mem _ hh')
      rw [hRpass m e hHm, hR1lnone m e hhm]
    · intro m e sa hsa
      cases hhp : histGet h m e with
      | none =>
        have hR1sa : histGet R1 m e = some sa := by rw [hR1lnone m e hhp, hsa]
        obtain ⟨s, hsR, hskeys, hsx, hssum⟩ := hRaccsome m e sa hR1sa
        refine ⟨s, hsR, hskeys, hsx, ?_⟩
        intro f hf
        rw [hssum f hf, listVal_cons]
        have : histVal h m e f = 0 := by simp [histVal, hhp]
        rw [this]
        simp
      | some t =>
        obtain ⟨s1, hs1R1, hs1keys, hs1x, hs1sum⟩ := hR1both m e sa t hsa hhp
        obtain ⟨s, hsR, hskeys, hsx, hssum⟩ := hRaccsome m e s1 hs1R1
        refine ⟨s, hsR, hskeys.trans hs1keys, ?_, ?_⟩
        · intro g hg
          rw [hsx g hg, hs1x g hg]
        · intro f hf
          rw [hssum f hf, listVal_cons]
          have hv1 : msVal s1 f = msVal sa f + msVal t f := by
            rw [msVal, hs1sum f hf]
            rfl
          have hvh : histVal h m e f = msVal t f := by simp [histVal, hhp]
          rw [hv1, hvh, add_assoc]
    · intro m e hnone s hs
      cases hhp : histGet h m e with
      | none =>
        have hR1none : histGet R1 m e = none := by rw [hR1accnone m e hnone, hhp]
        obtain ⟨s0, hs0, hskeys, hsx, hssum⟩ := hRaccnone' m e hR1none s hs
        refine ⟨s0, ?_, hskeys, hsx, ?_⟩
        · rw [firstOcc, hhp, hs0]
        · intro f hf
          rw [hssum f hf, listVal_cons]
          have : histVal h m e f = 0 := by simp [histVal, hhp]
          rw [this]
          simp
      | some t =>
        have hR1t : histGet R1 m e = some t := by rw [hR1accnone m e hnone, hhp]
        obtain ⟨s', hs'R, hs'keys, hs'x, hs'sum⟩ := hRaccsome m e t hR1t
        have hss' : s = s' := by
          rw [hs'R] at hs
          injection hs with h'
          exact h'.symm
        subst hss'
        refine ⟨t, ?_, hs'keys, hs'x, ?_⟩
        · rw [firstOcc, hhp]
        · intro f hf
          rw [hs'sum f hf, listVal_cons]
          have : histVal h m e f = msVal t f := by simp [histVal, hhp]
          rw [this]

/-- `merge_loc_histories` on sound inputs: succeeds, the result's months
and (month, extension) pairs are the union of the inputs', and each
present MetricSet takes its key list and extra keys from the first input
in which the pair occurred, while every required field holds the sum of
the inputs' values. -/
theorem merge_spec (H : List Hist) (hw : ∀ h ∈ H, HistOk h) :
    ∃ R, merge_loc_histories H = Except.ok R ∧ HistOk R ∧
      (∀ m, (alGet R m).isSome ↔ ∃ h ∈ H, (alGet h m).isSome) ∧
      (∀ m e, (histGet R m e).isSome ↔ ∃ h ∈ H, (histGet h m e).isSome) ∧
      (∀ m e s, histGet R m e = some s →
        ∃ s0, firstOcc H m e = some s0 ∧ alKeys s = alKeys s0 ∧
          (∀ g, g ∉ requiredFields → alGet s g = alGet s0 g) ∧
          (∀ f ∈ requiredFields, alGet s f = some (listVal H m e f))) := by
  have hempty : HistOk [] := ⟨List.nodup_nil, fun p hp => absurd hp (List.not_mem_nil p)⟩
  obtain ⟨R, hR, hRok, hRmonth, hRpair, _, _, hRaccnone⟩ := mergeFold_spec H [] hempty hw
  have hnone : ∀ m e, histGet ([] : Hist) m e = none := by
    intro m e
    simp [histGet, alGet]
  refine ⟨R, hR, hRok, ?_, ?_, ?_⟩
  · intro m
    rw [hRmonth m]
    simp [alGet]
  · intro m e
    rw [hRpair m e, hnone m e]
    simp
  · intro m e s hs
    exact hRaccnone m e (hnone m e) s hs

/-! ## Consequences for well-formed (exactly six fields) inputs -/

theorem requiredFields_nodup : requiredFields.Nodup := by decide

theorem MSok_of_MSwf {s : MetricSet} (h : MSwf s) : MSok s := by
  refine ⟨h.nodup_iff.mpr requiredFields_nodup, ?_⟩
  intro f hf
  exact (alGet_isSome_iff s f).mpr (h.mem_iff.mpr hf)

theorem HistOk_of_HistWf {h : Hist} (hw : HistWf h) : HistOk h := by
  refine ⟨hw.1, ?_⟩
  intro p hp
  obtain ⟨hnd, hms⟩ := hw.2 p hp
  exact ⟨hnd, fun q hq => MSok_of_MSwf (hms q hq)⟩

theorem firstOcc_mem {H : List Hist} {m e : String} {s0 : MetricSet}
    (h : firstOcc H m e = some s0) : ∃ h' ∈ H, histGet h' m e = some s0 := by
  induction H with
  | nil => simp [firstOcc] at h
  | cons h1 H ih =>
    rw [firstOcc] at h
    cases hg : histGet h1 m e with
    | some s =>
      rw [hg] at h
      simp at h
      refine ⟨h1, List.mem_cons_self _ _, ?_⟩
      rw [hg, h]
    | none =>
      rw [hg] at h
      obtain ⟨h', hmem, hh'⟩ := ih h
      exact ⟨h', List.mem_cons_of_mem _ hmem, hh'⟩

theorem MSwf_of_histGet {h : Hist} {m e : String} {s : MetricSet}
    (hw : HistWf h) (hs : histGet h m e = some s) : MSwf s := by
  rw [histGet] at hs
  cases hk : alGet h m with
  | none => rw [hk] at hs; exact absurd hs (by simp)
  | some ex =>
    rw [hk] at hs
    exact (hw.2 (m, ex) (mem_of_alGet_eq_some h m ex hk)).2 (e, s)
      (mem_of_alGet_eq_some ex e s hs)

theorem MSwf_of_firstOcc {H : List Hist} {m e : String} {s0 : MetricSet}
    (hw : ∀ h ∈ H, HistWf h) (h : firstOcc H m e = some s0) : MSwf s0 := by
  obtain ⟨h', hmem, hh'⟩ := firstOcc_mem h
  exact MSwf_of_histGet (hw h' hmem) hh'

/-- On inputs whose MetricSets carry exactly the six required fields,
every entry of the merge result also carries exactly the six required
fields (its key list is a permutation of `requiredFields`) and each field
holds the inputs' total. -/
theorem merge_entry_wf {H : List Hist} {m e : String} {s : MetricSet}
    (hw : ∀ h ∈ H, HistWf h)
    (hentry : ∃ s0, firstOcc H m e = some s0 ∧ alKeys s = alKeys s0 ∧
      (∀ g, g ∉ requiredFields → alGet s g = alGet s0 g) ∧
      (∀ f ∈ requiredFields, alGet s f = some (listVal H m e f))) :
    (alKeys s).Perm requiredFields ∧
      (∀ g, g ∉ requiredFields → alGet s g = none) ∧
      (∀ f ∈ requiredFields, alGet s f = some (listVal H m e f)) := by
  obtain ⟨s0, hs0, hkeys, _, hsum⟩ := hentry
  have hwf0 : MSwf s0 := MSwf_of_firstOcc hw hs0
  have hperm : (alKeys s).Perm requiredFields := hkeys ▸ hwf0
  refine ⟨hperm, ?_, hsum⟩
  intro g hg
  rw [alGet_eq_none_iff]
  intro hmem
  exact hg (hperm.mem_iff.mp hmem)

theorem alGet_of_mem_nodup {β : Type} (l : List (String × β)) (k : String) (v : β)
    (hnd : (alKeys l).Nodup) (h : (k, v) ∈ l) : alGet l k = some v := by
  induction l with
  | nil => exact absurd h (List.not_mem_nil _)
  | cons p rest ih =>
    rcases List.mem_cons.mp h with he | he
    · rw [← he]
      simp [alGet]
    · have hk : k ∈ alKeys rest := by
        rw [alKeys]
        exact List.mem_map.mpr ⟨(k, v), he, rfl⟩
      have hpne : ¬(p.1 = k) := by
        intro hpk
        have : p.1 ∉ alKeys rest := by
          have := (by simpa [alKeys] using hnd : p.1 ∉ rest.map Prod.fst ∧ (rest.map Prod.fst).Nodup)
          simpa [alKeys] using this.1
        rw [hpk] at this
        exact this hk
      have hndrest : (alKeys rest).Nodup := by
        have := (by simpa [alKeys] using hnd : p.1 ∉ rest.map Prod.fst ∧ (rest.map Prod.fst).Nodup)
        simpa [alKeys] using this.2
      rw [alGet, if_neg hpne]
      exact ih hndrest he

/-- A merge result over inputs with exactly six fields per MetricSet is
itself a history with exactly six fields per MetricSet. -/
theorem HistWf_of_merge {H : List Hist} {R : Hist}
    (hw : ∀ h ∈ H, HistWf h) (hok : HistOk R)
    (hentry : ∀ m e s, histGet R m e = some s →
      ∃ s0, firstOcc H m e = some s0 ∧ alKeys s = alKeys s0 ∧
        (∀ g, g ∉ requiredFields → alGet s g = alGet s0 g) ∧
        (∀ f ∈ requiredFields, alGet s f = some (listVal H m e f))) :
    HistWf R := by
  refine ⟨hok.1, ?_⟩
  intro p hp
  have hpm : alGet R p.1 = some p.2 := alGet_of_mem_nodup R p.1 p.2 hok.1 hp
  refine ⟨(hok.2 p hp).1, ?_⟩
  intro q hq
  have hqm : alGet p.2 q.1 = some q.2 :=
    alGet_of_mem_nodup p.2 q.1 q.2 (hok.2 p hp).1 hq
  have hg : histGet R p.1 q.1 = some q.2 := by simp [histGet, hpm, hqm]
  exact (merge_entry_wf hw (hentry _ _ _ hg)).1

theorem exists_mem_pair_iff {P : Hist → Prop} (x y : Hist) :
    (∃ h ∈ [x, y], P h) ↔ P x ∨ P y := by
  simp

theorem exists_mem_triple_iff {P : Hist → Prop} (x y z : Hist) :
    (∃ h ∈ [x, y, z], P h) ↔ P x ∨ P y ∨ P z := by
  simp

/-! ## Claim C1 -/

/-- C1: for well-formed inputs (every MetricSet carrying the six required
fields of the spec's data model), the value returned by
`merge_loc_histories` is invariant — as a Python `==` comparison of the
result documents — under any permutation of the input sequence, and
`merge([a,b,c])` equals `merge([merge([a,b]), c])`. -/
theorem claim1_merge_perm_grouping_invariant :
    (∀ H K : List Hist, (∀ h ∈ H, HistWf h) → H.Perm K →
      ∃ R R', merge_loc_histories H = Except.ok R ∧
        merge_loc_histories K = Except.ok R' ∧ histEqv R R') ∧
    (∀ a b c : Hist, HistWf a → HistWf b → HistWf c →
      ∃ R1 R R', merge_loc_histories [a, b] = Except.ok R1 ∧
        merge_loc_histories [a, b, c] = Except.ok R ∧
        merge_loc_histories [R1, c] = Except.ok R' ∧ histEqv R R') := by
  constructor
  · intro H K hw hp
    have hwK : ∀ h ∈ K, HistWf h := fun h hh => hw h (hp.mem_iff.mpr hh)
    obtain ⟨R, hR, _, hRm, hRp, hRe⟩ :=
      merge_spec H (fun h hh => HistOk_of_HistWf (hw h hh))
    obtain ⟨R', hR', _, hR'm, hR'p, hR'e⟩ :=
      merge_spec K (fun h hh => HistOk_of_HistWf (hwK h hh))
    refine ⟨R, R', hR, hR', ?_, ?_, ?_⟩
    · intro m
      rw [hRm m, hR'm m]
      constructor
      · rintro ⟨h, hm, hpr⟩
        exact ⟨h, hp.mem_iff.mp hm, hpr⟩
      · rintro ⟨h, hm, hpr⟩
        exact ⟨h, hp.mem_iff.mpr hm, hpr⟩
    · intro m e
      rw [hRp m e, hR'p m e]
      constructor
      · rintro ⟨h, hm, hpr⟩
        exact ⟨h, hp.mem_iff.mp hm, hpr⟩
      · rintro ⟨h, hm, hpr⟩
        exact ⟨h, hp.mem_iff.mpr hm, hpr⟩
    · intro m e s t hs ht g
      obtain ⟨permS, extraS, sumS⟩ := merge_entry_wf hw (hRe m e s hs)
      obtain ⟨permT, extraT, sumT⟩ := merge_entry_wf hwK (hR'e m e t ht)
      by_cases hg : g ∈ requiredFields
      · rw [sumS g hg, sumT g hg]
        have : listVal H m e g = listVal K m e g :=
          List.Perm.sum_eq (hp.map (fun h => histVal h m e g))
        rw [this]
      · rw [extraS g hg, extraT g hg]
  · intro a b c hwa hwb hwc
    have hw2 : ∀ h ∈ [a, b], HistWf h := by
      intro h hh
      rcases List.mem_cons.mp hh with h' | h'
      · rw [h']; exact hwa
      · rw [List.mem_singleton.mp h']; exact hwb
    have hw3 : ∀ h ∈ [a, b, c], HistWf h := by
      intro h hh
      rcases List.mem_cons.mp hh with h' | h'
      · rw [h']; exact hwa
      · rcases List.mem_cons.mp h' with h'' | h''
        · rw [h'']; exact hwb
        · rw [List.mem_singleton.mp h'']; exact hwc
    obtain ⟨R1, hR1, hR1ok, hR1m, hR1p, hR1e⟩ :=
      merge_spec [a, b] (fun h hh => HistOk_of_HistWf (hw2 h hh))
    obtain ⟨R, hR, _, hRm, hRp, hRe⟩ :=
      merge_spec [a, b, c] (fun h hh => HistOk_of_HistWf (hw3 h hh))
    have hwR1 : HistWf R1 := HistWf_of_merge hw2 hR1ok hR1e
    have hwPair : ∀ h ∈ [R1, c], HistWf h := by
      intro h hh
      rcases List.mem_cons.mp hh with h' | h'
      · rw [h']; exact hwR1
      · rw [List.mem_singleton.mp h']; exact hwc
    obtain ⟨R', hR', _, hR'm, hR'p, hR'e⟩ :=
      merge_spec [R1, c] (fun h hh => HistOk_of_HistWf (hwPair h hh))
    refine ⟨R1, R, R', hR1, hR, hR', ?_, ?_, ?_⟩
    · intro m
      rw [hRm m, hR'm m, exists_mem_triple_iff, exists_mem_pair_iff, hR1m m,
        exists_mem_pair_iff]
      tauto
    · intro m e
      rw [hRp m e, hR'p m e, exists_mem_triple_iff, exists_mem_pair_iff, hR1p m e,
        exists_mem_pair_iff]
      tauto
    · intro m e s t hs ht g
      obtain ⟨permS, extraS, sumS⟩ := merge_entry_wf hw3 (hRe m e s hs)
      obtain ⟨permT, extraT, sumT⟩ := merge_entry_wf hwPair (hR'e m e t ht)
      by_cases hg : g ∈ requiredFields
      · rw [sumS g hg, sumT g hg]
        have hR1val : histVal R1 m e g = histVal a m e g + histVal b m e g := by
          cases h1 : histGet R1 m e with
          | some s1 =>
            obtain ⟨_, _, sum1⟩ := merge_entry_wf hw2 (hR1e m e s1 h1)
            have hmv : msVal s1 g = listVal [a, b] m e g := by
              rw [msVal, sum1 g hg]
              rfl
            have hv : histVal R1 m e g = msVal s1 g := by simp [histVal, h1]
            rw [hv, hmv, listVal_cons, listVal_cons, listVal_nil]
            omega
          | none =>
            have hnone : ¬∃ h ∈ [a, b], (histGet h m e).isSome := by
              rw [← hR1p m e, h1]
              simp
            rw [exists_mem_pair_iff] at hnone
            push_neg at hnone
            have hA : histGet a m e = none := by
              cases hx : histGet a m e with
              | none => rfl
              | some _ => exact absurd (by rw [hx]; rfl) hnone.1
            have hB : histGet b m e = none := by
              cases hx : histGet b m e with
              | none => rfl
              | some _ => exact absurd (by rw [hx]; rfl) hnone.2
            simp [histVal, h1, hA, hB]
        have : listVal [a, b, c] m e g = listVal [R1, c] m e g := by
          simp only [listVal_cons, listVal_nil, hR1val]
          omega
        rw [this]
      · rw [extraS g hg, extraT g hg]

/-- Witness for C1 at concrete inputs: a two-document permutation and the
three-document regrouping, with all hypotheses discharged by computation. -/
theorem claim1_witness :
    (∃ R R', merge_loc_histories [exH1, exH2] = Except.ok R ∧
      merge_loc_histories [exH2, exH1] = Except.ok R' ∧ histEqv R R') ∧
    (∃ R1 R R', merge_loc_histories [exH1, exH2] = Except.ok R1 ∧
      merge_loc_histories [exH1, exH2, exH1] = Except.ok R ∧
      merge_loc_histories [R1, exH1] = Except.ok R' ∧ histEqv R R') :=
  ⟨claim1_merge_perm_grouping_invariant.1 [exH1, exH2] [exH2, exH1]
      (by simp only [HistWf, MSwf]; decide) (by decide),
    claim1_merge_perm_grouping_invariant.2 exH1 exH2 exH1
      (by simp only [HistWf, MSwf]; decide) (by simp only [HistWf, MSwf]; decide)
      (by simp only [HistWf, MSwf]; decide)⟩

/-! ## Claim C4 -/

/-- C4: for a single well-formed history `H`, `merge([H, H])` has exactly
the months and (month, extension) pairs of `H`, and every one of the six
required fields of every MetricSet is exactly double its value in `H`. -/
theorem claim4_self_merge_doubles (H : Hist) (hw : HistWf H) :
    ∃ R, merge_loc_histories [H, H] = Except.ok R ∧
      (∀ m, (alGet R m).isSome ↔ (alGet H m).isSome) ∧
      (∀ m e, (histGet R m e).isSome ↔ (histGet H m e).isSome) ∧
      (∀ m e s t, histGet R m e = some s → histGet H m e = some t →
        ∀ f ∈ requiredFields, alGet s f = some (2 * msVal t f)) := by
  have hok : ∀ h ∈ [H, H], HistOk h := by
    intro h hh
    rcases List.mem_cons.mp hh with h' | h'
    · rw [h']; exact HistOk_of_HistWf hw
    · rw [List.mem_singleton.mp h']; exact HistOk_of_HistWf hw
  obtain ⟨R, hR, _, hRm, hRp, hRe⟩ := merge_spec [H, H] hok
  refine ⟨R, hR, ?_, ?_, ?_⟩
  · intro m
    rw [hRm m, exists_mem_pair_iff]
    tauto
  · intro m e
    rw [hRp m e, exists_mem_pair_iff]
    tauto
  · intro m e s t hs ht f hf
    obtain ⟨s0, _, _, _, hsum⟩ := hRe m e s hs
    rw [hsum f hf]
    have : listVal [H, H] m e f = 2 * msVal t f := by
      rw [listVal_cons, listVal_cons, listVal_nil]
      have : histVal H m e f = msVal t f := by simp [histVal, ht]
      rw [this]
      omega
    rw [this]

/-- Witness for C4 at a concrete two-month history. -/
theorem claim4_witness :
    ∃ R, merge_loc_histories [exH2, exH2] = Except.ok R ∧
      (∀ m, (alGet R m).isSome ↔ (alGet exH2 m).isSome) ∧
      (∀ m e, (histGet R m e).isSome ↔ (histGet exH2 m e).isSome) ∧
      (∀ m e s t, histGet R m e = some s → histGet exH2 m e = some t →
        ∀ f ∈ requiredFields, alGet s f = some (2 * msVal t f)) :=
  claim4_self_merge_doubles exH2 (by simp only [HistWf, MSwf]; decide)

/-! ## Claim C9 -/

/-- C9: the merge sums only the six named fields.  Over inputs whose
MetricSets carry all six required fields plus possibly additional keys,
each merged entry's key list is exactly that of the first input in which
its (month, extension) pair occurred; the additional keys' values are
unchanged from that first occurrence (later occurrences' extra keys are
ignored), and the six required fields hold the inputs' totals. -/
theorem claim9_extra_keys_from_first_occurrence (H : List Hist)
    (hw : ∀ h ∈ H, HistOk h) :
    ∃ R, merge_loc_histories H = Except.ok R ∧
      ∀ m e s, histGet R m e = some s →
        ∃ s0, firstOcc H m e = some s0 ∧
          alKeys s = alKeys s0 ∧
          (∀ g, g ∉ requiredFields → alGet s g = alGet s0 g) ∧
          (∀ f ∈ requiredFields, alGet s f = some (listVal H m e f)) := by
  obtain ⟨R, hR, _, _, _, hRe⟩ := merge_spec H hw
  exact ⟨R, hR, hRe⟩

/-- Witness for C9: two inputs sharing a pair, both carrying the extra
key `custom`; the merged entry keeps the first input's `custom` value. -/
theorem claim9_witness :
    ∃ R, merge_loc_histories [exX1, exX2] = Except.ok R ∧
      ∀ m e s, histGet R m e = some s →
        ∃ s0, firstOcc [exX1, exX2] m e = some s0 ∧
          alKeys s = alKeys s0 ∧
          (∀ g, g ∉ requiredFields → alGet s g = alGet s0 g) ∧
          (∀ f ∈ requiredFields, alGet s f = some (listVal [exX1, exX2] m e f)) :=
  claim9_extra_keys_from_first_occurrence [exX1, exX2]
    (by simp only [HistOk, ExtsOk, MSok]; decide)

/-! ## Claim C2: error behaviour on missing fields -/

theorem mergeExtsFold_insert (l : Exts) :
    ∀ acc : Exts, (∀ k ∈ alKeys l, alGet acc k = none) → (alKeys l).Nodup →
      List.foldlM mergeExtsStep acc l = Except.ok (acc ++ l) := by
  induction l with
  | nil =>
    intro acc _ _
    rw [List.append_nil]
    rfl
  | cons q rest ih =>
    intro acc hnone hnd
    obtain ⟨k, v⟩ := q
    have hk : alGet acc k = none := hnone k (by simp [alKeys])
    have hstep : mergeExtsStep acc (k, v) = Except.ok (alSet acc k v) := by
      simp [mergeExtsStep, hk]
    have hset : alSet acc k v = acc ++ [(k, v)] := alSet_of_not_mem acc k v hk
    have hknotrest : k ∉ alKeys rest := by simpa [alKeys] using (List.nodup_cons.mp hnd).1
    have hnone' : ∀ k' ∈ alKeys rest, alGet (acc ++ [(k, v)]) k' = none := by
      intro k' hk'
      have hne : ¬(k = k') := fun h => hknotrest (h ▸ hk')
      rw [alGet_append]
      rw [hnone k' (by simp [alKeys]; right; simpa [alKeys] using hk')]
      simp [alGet, hne]
    have hndrest : (alKeys rest).Nodup := by
      simpa [alKeys] using (List.nodup_cons.mp hnd).2
    rw [exFoldlM_cons, hstep, exBind_ok, hset, ih (acc ++ [(k, v)]) hnone' hndrest,
      List.append_assoc]
    rfl

theorem merge1Fold_insert (data : Hist) :
    ∀ acc : Hist, (∀ m ∈ alKeys data, alGet acc m = none) → (alKeys data).Nodup →
      (∀ p ∈ data, (alKeys p.2).Nodup) →
      List.foldlM merge1Step acc data = Except.ok (acc ++ data) := by
  induction data with
  | nil =>
    intro acc _ _ _
    rw [List.append_nil]
    rfl
  | cons q rest ih =>
    intro acc hnone hnd hexts
    obtain ⟨k, exts⟩ := q
    have hk : alGet acc k = none := hnone k (by simp [alKeys])
    have hcur : (alGet acc k).getD [] = ([] : Exts) := by rw [hk]; rfl
    have hme : mergeExts ([] : Exts) exts = Except.ok exts := by
      have := mergeExtsFold_insert exts []
        (fun k' _ => by simp [alGet]) (hexts (k, exts) (List.mem_cons_self _ _))
      rw [show mergeExts ([] : Exts) exts = List.foldlM mergeExtsStep [] exts from rfl, this]
      rw [List.nil_append]
    have hstep : merge1Step acc (k, exts) = Except.ok (alSet acc k exts) := by
      rw [merge1Step, hcur, hme]
      rfl
    have hset : alSet acc k exts = acc ++ [(k, exts)] := alSet_of_not_mem acc k exts hk
    have hknotrest : k ∉ alKeys rest := by simpa [alKeys] using (List.nodup_cons.mp hnd).1
    have hnone' : ∀ m ∈ alKeys rest, alGet (acc ++ [(k, exts)]) m = none := by
      intro m hm
      have hne : ¬(k = m) := fun h => hknotrest (h ▸ hm)
      rw [alGet_append]
      rw [hnone m (by simp [alKeys]; right; simpa [alKeys] using hm)]
      simp [alGet, hne]
    have hndrest : (alKeys rest).Nodup := by
      simpa [alKeys] using (List.nodup_cons.mp hnd).2
    have hextsrest : ∀ p ∈ rest, (alKeys p.2).Nodup :=
      fun p hp => hexts p (List.mem_cons_of_mem _ hp)
    rw [exFoldlM_cons, hstep, exBind_ok, hset, ih (acc ++ [(k, exts)]) hnone' hndrest
      hextsrest, List.append_assoc]
    rfl

/-- Merging one document into the empty accumulator reproduces the
document: every entry is installed, none is summed. -/
theorem merge1_nil_eq (a : Hist) (ha : HistNodupKeys a) :
    merge1 [] a = Except.ok a := by
  rw [merge1_eq_foldlM,
    merge1Fold_insert a [] (fun m _ => by simp [alGet]) ha.1 ha.2, List.nil_append]

theorem mergeExtsStep_ok_shape (acc : Exts) (p : String × MetricSet) (acc' : Exts)
    (h : mergeExtsStep acc p = Except.ok acc') : ∃ w, acc' = alSet acc p.1 w := by
  rw [mergeExtsStep] at h
  cases h1 : alGet acc p.1 with
  | none =>
    rw [h1] at h
    injection h with h
    exact ⟨p.2, h.symm⟩
  | some cur =>
    rw [h1] at h
    dsimp only at h
    cases h2 : mergeStats cur p.2 with
    | ok s =>
      rw [h2, exMap_ok] at h
      injection h with h
      exact ⟨s, h.symm⟩
    | error e =>
      rw [h2, exMap_error] at h
      exact absurd h (by simp)

theorem merge1Step_ok_shape (acc : Hist) (p : String × Exts) (acc' : Hist)
    (h : merge1Step acc p = Except.ok acc') : ∃ w, acc' = alSet acc p.1 w := by
  rw [merge1Step] at h
  cases h1 : mergeExts ((alGet acc p.1).getD []) p.2 with
  | ok E =>
    rw [h1, exMap_ok] at h
    injection h with h
    exact ⟨E, h.symm⟩
  | error e =>
    rw [h1, exMap_error] at h
    exact absurd h (by simp)

theorem mergeExtsFold_error (l : Exts) :
    ∀ (acc : Exts) (e : String) (s t : MetricSet),
      alGet acc e = some s → alGet l e = some t →
      (∃ f ∈ requiredFields, alGet s f = none ∨ alGet t f = none) →
      ∃ err, List.foldlM mergeExtsStep acc l = Except.error err := by
  induction l with
  | nil =>
    intro acc e s t _ ht _
    simp [alGet] at ht
  | cons q rest ih =>
    intro acc e s t hs ht hmiss
    obtain ⟨k, v⟩ := q
    by_cases hke : k = e
    · subst hke
      have htv : t = v := by
        simp [alGet] at ht
        exact ht.symm
      subst htv
      obtain ⟨err, herr⟩ := mergeStats_error s t hmiss
      refine ⟨err, ?_⟩
      have hstep : mergeExtsStep acc (k, t) = Except.error err := by
        simp [mergeExtsStep, hs, herr, exMap_error]
      rw [exFoldlM_cons, hstep, exBind_error]
    · have htrest : alGet rest e = some t := by
        simpa [alGet, hke] using ht
      cases hstep : mergeExtsStep acc (k, v) with
      | error err =>
        refine ⟨err, ?_⟩
        rw [exFoldlM_cons, hstep, exBind_error]
      | ok acc' =>
        obtain ⟨w, hw⟩ := mergeExtsStep_ok_shape acc (k, v) acc' hstep
        have hs' : alGet acc' e = some s := by
          rw [hw, alGet_alSet_ne acc k e w (fun h => hke h.symm), hs]
        obtain ⟨err, herr⟩ := ih acc' e s t hs' htrest hmiss
        refine ⟨err, ?_⟩
        rw [exFoldlM_cons, hstep, exBind_ok, herr]

theorem merge1Fold_error (data : Hist) :
    ∀ (acc : Hist) (m e : String) (s t : MetricSet),
      histGet acc m e = some s → histGet data m e = some t →
      (∃ f ∈ requiredFields, alGet s f = none ∨ alGet t f = none) →
      ∃ err, List.foldlM merge1Step acc data = Except.error err := by
  induction data with
  | nil =>
    intro acc m e s t _ ht _
    simp [histGet, alGet] at ht
  | cons q rest ih =>
    intro acc m e s t hs ht hmiss
    obtain ⟨k, exts⟩ := q
    by_cases hkm : k = m
    · subst hkm
      have hexte : alGet exts e = some t := by
        simpa [histGet, alGet] using ht
      rw [histGet] at hs
      cases hacc : alGet acc k with
      | none =>
        rw [hacc] at hs
        exact absurd hs (by simp)
      | some curE =>
        rw [hacc] at hs
        obtain ⟨err, herr⟩ := mergeExtsFold_error exts curE e s t hs hexte hmiss
        refine ⟨err, ?_⟩
        have hstep : merge1Step acc (k, exts) = Except.error err := by
          rw [merge1Step, hacc]
          rw [show mergeExts ((some curE).getD []) exts =
            List.foldlM mergeExtsStep curE exts from rfl, herr, exMap_error]
        rw [exFoldlM_cons, hstep, exBind_error]
    · have htrest : histGet rest m e = some t := by
        simpa [histGet, alGet, hkm] using ht
      cases hstep : merge1Step acc (k, exts) with
      | error err =>
        refine ⟨err, ?_⟩
        rw [exFoldlM_cons, hstep, exBind_error]
      | ok acc' =>
        obtain ⟨w, hw⟩ := merge1Step_ok_shape acc (k, exts) acc' hstep
        have hs' : histGet acc' m e = some s := by
          rw [histGet, hw, alGet_alSet_ne acc k m w (fun h => hkm h.symm)]
          rw [histGet] at hs
          exact hs
        obtain ⟨err, herr⟩ := ih acc' m e s t hs' htrest hmiss
        refine ⟨err, ?_⟩
        rw [exFoldlM_cons, hstep, exBind_ok, herr]

/-- Counterexample to C2 as stated: `exBad`'s only MetricSet lacks the
required field `repos`, yet the merge call over `[exBad]` succeeds — the
incomplete MetricSet is passed through silently, because the field loop
runs only when a (month, extension) pair is encountered a second time. -/
theorem claim2_counterexample :
    (∃ s, histGet exBad "2024-01" "py" = some s ∧ alGet s "repos" = none) ∧
    merge_loc_histories [exBad] = Except.ok exBad := by
  constructor
  · exact ⟨[("lines", 1), ("files", 1), ("additions", 1), ("deletions", 1),
      ("modifications", 1)], by rfl, by rfl⟩
  · rfl

/-- C2 (amended): a required field missing from an input's MetricSet is
fatal exactly when that (month, extension) entry has to be summed with
another occurrence.  Merging `[a, b]` where some pair occurs in both and
either occurrence lacks a required field raises `KeyError` (so `main`
writes no output); a pair occurring only once is passed through without
any error, as `claim2_counterexample` shows. -/
theorem claim2_missing_field_error_on_sum (a b : Hist) (m e f : String)
    (s t : MetricSet) (ha : HistNodupKeys a)
    (hs : histGet a m e = some s) (ht : histGet b m e = some t)
    (hf : f ∈ requiredFields) (hmiss : alGet s f = none ∨ alGet t f = none) :
    ∃ err, merge_loc_histories [a, b] = Except.error err := by
  obtain ⟨err, herr⟩ := merge1Fold_error b a m e s t hs ht ⟨f, hf, hmiss⟩
  refine ⟨err, ?_⟩
  show List.foldlM merge1 [] [a, b] = _
  rw [exFoldlM_cons, merge1_nil_eq a ha, exBind_ok, exFoldlM_cons,
    show merge1 a b = Except.error err from herr, exBind_error]

/-- Witness for C2's amended statement: merging the incomplete document
with itself makes the pair recur, and the call fails with a `KeyError`. -/
theorem claim2_witness :
    ∃ err, merge_loc_histories [exBad, exBad] = Except.error err :=
  claim2_missing_field_error_on_sum exBad exBad "2024-01" "py" "repos"
    [("lines", 1), ("files", 1), ("additions", 1), ("deletions", 1),
      ("modifications", 1)]
    [("lines", 1), ("files", 1), ("additions", 1), ("deletions", 1),
      ("modifications", 1)]
    (by simp only [HistNodupKeys]; decide) (by rfl) (by rfl) (by decide)
    (Or.inl (by rfl))

/-! ## Claim C3: aliasing of MetricSets in the accumulator -/

theorem hasPair_cons (k : String) (exts : ExtsH) (rest : HistH) (m e : String) :
    hasPair ((k, exts) :: rest) m e ↔
      ((m = k ∧ e ∈ alKeys exts) ∨ (¬(m = k) ∧ hasPair rest m e)) := by
  by_cases hk : m = k
  · subst hk
    constructor
    · rintro ⟨exts', h1, h2⟩
      simp only [alGet, if_pos rfl] at h1
      injection h1 with h1
      subst h1
      exact Or.inl ⟨rfl, h2⟩
    · rintro (⟨_, h⟩ | ⟨h, _⟩)
      · exact ⟨exts, by simp [alGet], h⟩
      · exact absurd rfl h
  · have hk' : ¬(k = m) := fun h => hk h.symm
    constructor
    · rintro ⟨exts', h1, h2⟩
      simp only [alGet, if_neg hk'] at h1
      exact Or.inr ⟨hk, ⟨exts', h1, h2⟩⟩
    · rintro (⟨h, _⟩ | ⟨_, ⟨exts', h1, h2⟩⟩)
      · exact absurd h hk
      · exact ⟨exts', by simp only [alGet, if_neg hk']; exact h1, h2⟩

theorem hasPair_month_mem {h : HistH} {m e : String} (hp : hasPair h m e) :
    m ∈ alKeys h := by
  obtain ⟨exts, hx, _⟩ := hp
  exact (alGet_isSome_iff h m).mp (by rw [hx]; rfl)

theorem hasPair_mem_pairsOf {h : HistH} {m e : String} (hp : hasPair h m e) :
    (m, e) ∈ pairsOf h := by
  obtain ⟨exts, hx, he⟩ := hp
  rw [pairsOf, List.mem_flatMap]
  refine ⟨(m, exts), mem_of_alGet_eq_some h m exts hx, ?_⟩
  rw [List.mem_map]
  obtain ⟨q, hq, hqe⟩ := List.mem_map.mp (show e ∈ exts.map Prod.fst from he)
  refine ⟨q, hq, ?_⟩
  show (m, q.1) = (m, e)
  rw [hqe]

theorem mergeExtsHFold_insert (l : ExtsH) :
    ∀ (st : Store) (acc : ExtsH),
      (∀ k ∈ alKeys l, alGet acc k = none) → (alKeys l).Nodup →
      List.foldlM mergeExtsHStep (st, acc) l = Except.ok (st, acc ++ l) := by
  induction l with
  | nil =>
    intro st acc _ _
    rw [List.append_nil]
    rfl
  | cons q rest ih =>
    intro st acc hnone hnd
    obtain ⟨k, i⟩ := q
    have hk : alGet acc k = none := hnone k (by simp [alKeys])
    have hstep : mergeExtsHStep (st, acc) (k, i) = Except.ok (st, alSet acc k i) := by
      simp [mergeExtsHStep, hk]
    have hset : alSet acc k i = acc ++ [(k, i)] := alSet_of_not_mem acc k i hk
    have hknotrest : k ∉ alKeys rest := by simpa [alKeys] using (List.nodup_cons.mp hnd).1
    have hnone' : ∀ k' ∈ alKeys rest, alGet (acc ++ [(k, i)]) k' = none := by
      intro k' hk'
      have hne : ¬(k = k') := fun h => hknotrest (h ▸ hk')
      rw [alGet_append]
      rw [hnone k' (by simp [alKeys]; right; simpa [alKeys] using hk')]
      simp [alGet, hne]
    have hndrest : (alKeys rest).Nodup := by
      simpa [alKeys] using (List.nodup_cons.mp hnd).2
    rw [exFoldlM_cons, hstep, exBind_ok, hset, ih st (acc ++ [(k, i)]) hnone' hndrest,
      List.append_assoc]
    rfl

theorem merge1HFold_insert (data : HistH) :
    ∀ (st : Store) (acc : HistH),
      (alKeys data).Nodup → (∀ p ∈ data, (alKeys p.2).Nodup) →
      (∀ m e, hasPair data m e → ¬ hasPair acc m e) →
      ∃ R, List.foldlM merge1HStep (st, acc) data = Except.ok (st, R) ∧
        (∀ m e, hasPair R m e ↔ (hasPair acc m e ∨ hasPair data m e)) := by
  induction data with
  | nil =>
    intro st acc _ _ _
    refine ⟨acc, rfl, ?_⟩
    intro m e
    have : ¬hasPair ([] : HistH) m e := by
      rintro ⟨exts, hx, _⟩
      simp [alGet] at hx
    tauto
  | cons q rest ih =>
    intro st acc hnd hexts hdisj
    obtain ⟨k, exts⟩ := q
    have hknotrest : k ∉ alKeys rest := by simpa [alKeys] using (List.nodup_cons.mp hnd).1
    have hndrest : (alKeys rest).Nodup := by
      simpa [alKeys] using (List.nodup_cons.mp hnd).2
    have hextsrest : ∀ p ∈ rest, (alKeys p.2).Nodup :=
      fun p hp => hexts p (List.mem_cons_of_mem _ hp)
    set cur := (alGet acc k).getD [] with hcurdef
    have hcurmem : ∀ e, e ∈ alKeys cur ↔ hasPair acc k e := by
      intro e
      rw [hcurdef]
      cases hc : alGet acc k with
      | none =>
        simp only [Option.getD_none]
        constructor
        · intro h
          simp [alKeys] at h
        · rintro ⟨exts', hx, _⟩
          rw [hc] at hx
          exact absurd hx (by simp)
      | some curE =>
        simp only [Option.getD_some]
        constructor
        · intro h
          exact ⟨curE, hc, h⟩
        · rintro ⟨exts', hx, he⟩
          rw [hc] at hx
          injection hx with hx
          rw [hx]
          exact he
    have hcurnone : ∀ e ∈ alKeys exts, alGet cur e = none := by
      intro e he
      rw [alGet_eq_none_iff]
      intro hc
      exact hdisj k e (by rw [hasPair_cons]; exact Or.inl ⟨rfl, he⟩) ((hcurmem e).mp hc)
    have hfold := mergeExtsHFold_insert exts st cur hcurnone
      (hexts (k, exts) (List.mem_cons_self _ _))
    have hstep : merge1HStep (st, acc) (k, exts) =
        Except.ok (st, alSet acc k (cur ++ exts)) := by
      rw [merge1HStep]
      rw [show mergeExtsH st ((alGet acc k).getD []) exts =
        List.foldlM mergeExtsHStep (st, (alGet acc k).getD []) exts from rfl]
      rw [← hcurdef, hfold]
      rfl
    set acc' := alSet acc k (cur ++ exts) with haccsdef
    have hacc'pair : ∀ m e, hasPair acc' m e ↔
        (hasPair acc m e ∨ (m = k ∧ e ∈ alKeys exts)) := by
      intro m e
      by_cases hm : m = k
      · subst hm
        have h1 : alGet acc' m = some (cur ++ exts) := by
          rw [haccsdef]
          exact alGet_alSet_self acc m (cur ++ exts)
        have hmemapp : e ∈ alKeys (cur ++ exts) ↔ (e ∈ alKeys cur ∨ e ∈ alKeys exts) := by
          simp [alKeys]
        constructor
        · rintro ⟨exts', hx, he⟩
          rw [h1] at hx
          injection hx with hx
          subst hx
          rcases hmemapp.mp he with h | h
          · exact Or.inl ((hcurmem e).mp h)
          · exact Or.inr ⟨rfl, h⟩
        · rintro (h | ⟨_, h⟩)
          · exact ⟨cur ++ exts, h1, hmemapp.mpr (Or.inl ((hcurmem e).mpr h))⟩
          · exact ⟨cur ++ exts, h1, hmemapp.mpr (Or.inr h)⟩
      · have h1 : alGet acc' m = alGet acc m := by
          rw [haccsdef]
          exact alGet_alSet_ne acc k m (cur ++ exts) (fun h => hm h)
        have : hasPair acc' m e ↔ hasPair acc m e := by
          constructor
          · rintro ⟨exts', hx, he⟩
            exact ⟨exts', by rw [← h1]; exact hx, he⟩
          · rintro ⟨exts', hx, he⟩
            exact ⟨exts', by rw [h1]; exact hx, he⟩
        rw [this]
        tauto
    have hdisj' : ∀ m e, hasPair rest m e → ¬ hasPair acc' m e := by
      intro m e hr
      have hmk : ¬(m = k) := by
        intro h
        subst h
        exact hknotrest (hasPair_month_mem hr)
      rw [hacc'pair m e]
      rintro (h | ⟨hm, _⟩)
      · exact hdisj m e (by rw [hasPair_cons]; exact Or.inr ⟨hmk, hr⟩) h
      · exact hmk hm
    obtain ⟨R, hR, hRpair⟩ := ih st acc' hndrest hextsrest hdisj'
    refine ⟨R, ?_, ?_⟩
    · rw [exFoldlM_cons, hstep, exBind_ok, hR]
    · intro m e
      rw [hRpair m e, hacc'pair m e, hasPair_cons]
      by_cases hm : m = k
      · have hnorest : ¬ hasPair rest m e := by
          intro hr
          rw [hm] at hr
          exact hknotrest (hasPair_month_mem hr)
        tauto
      · tauto

theorem mergeHFold_insert (H : List HistH) :
    ∀ (st : Store) (acc : HistH),
      (∀ h ∈ H, HistHNodup h) →
      List.Pairwise (fun a b => ∀ m e, hasPair a m e → ¬ hasPair b m e) H →
      (∀ h ∈ H, ∀ m e, hasPair h m e → ¬ hasPair acc m e) →
      ∃ R, List.foldlM mergeHStep (st, acc) H = Except.ok (st, R) ∧
        (∀ m e, hasPair R m e ↔ (hasPair acc m e ∨ ∃ h ∈ H, hasPair h m e)) := by
  induction H with
  | nil =>
    intro st acc _ _ _
    refine ⟨acc, rfl, ?_⟩
    intro m e
    simp
  | cons h rest ih =>
    intro st acc hnodups hpw hdisj
    have hh := hnodups h (List.mem_cons_self _ _)
    obtain ⟨R1, hR1, hR1pair⟩ := merge1HFold_insert h st acc hh.1 hh.2
      (fun m e hp => hdisj h (List.mem_cons_self _ _) m e hp)
    have hdisj' : ∀ h' ∈ rest, ∀ m e, hasPair h' m e → ¬ hasPair R1 m e := by
      intro h' hmem m e hp
      rw [hR1pair m e]
      rintro (hacc | hhead)
      · exact hdisj h' (List.mem_cons_of_mem _ hmem) m e hp hacc
      · exact (List.pairwise_cons.mp hpw).1 h' hmem m e hhead hp
    obtain ⟨R, hR, hRpair⟩ := ih st R1
      (fun h' hm => hnodups h' (List.mem_cons_of_mem _ hm))
      (List.pairwise_cons.mp hpw).2 hdisj'
    refine ⟨R, ?_, ?_⟩
    · rw [exFoldlM_cons, show mergeHStep (st, acc) h = Except.ok (st, R1) from hR1,
        exBind_ok, hR]
    · intro m e
      rw [hRpair m e, hR1pair m e, List.exists_mem_cons_iff]
      tauto

/-- Counterexample to C3 as stated: merging two loaded documents that
share the pair `("2024-01", ".py")` mutates the first document's
MetricSet cell in place — line 30 installs a shared reference, not a
copy, and line 34's `+=` writes through it.  After the merge, cell 0
(the first input's MetricSet) no longer holds its original value. -/
theorem claim3_counterexample :
    ∃ p, mergeH exStore [exAH, exBH] = Except.ok p ∧
      stRead p.1 0 ≠ stRead exStore 0 :=
  ⟨([exMS 3, exMS 2], [("2024-01", [(".py", 0)])]), by rfl, by decide⟩

/-- C3 (amended): the accumulator entry installed on first encounter is
a shared reference to the input's MetricSet, not a copy; the input
documents are left unmutated exactly when no (month, extension) pair
occurs more than once across the inputs.  For inputs with pairwise
disjoint (month, extension) pairs the merge succeeds and the store —
every loaded input MetricSet — is returned unchanged. -/
theorem claim3_disjoint_inputs_unmutated (st : Store) (H : List HistH)
    (h1 : ∀ h ∈ H, HistHNodup h) (h2 : (H.flatMap pairsOf).Nodup) :
    ∃ R, mergeH st H = Except.ok (st, R) := by
  have hpw0 : List.Pairwise (List.Disjoint on pairsOf) H := (List.nodup_flatMap.mp h2).2
  have hpw : List.Pairwise (fun a b => ∀ m e, hasPair a m e → ¬ hasPair b m e) H := by
    refine hpw0.imp ?_
    intro a b hab m e hpa hpb
    exact hab (hasPair_mem_pairsOf hpa) (hasPair_mem_pairsOf hpb)
  obtain ⟨R, hR, _⟩ := mergeHFold_insert H st [] h1 hpw
    (fun h _ m e _ hacc => by
      obtain ⟨exts, hx, _⟩ := hacc
      simp [alGet] at hx)
  exact ⟨R, hR⟩

/-- Witness for C3's amended statement: two inputs with disjoint months
merge with the store — hence every input MetricSet — unchanged. -/
theorem claim3_witness :
    ∃ R, mergeH exStore [exAH, exCH] = Except.ok (exStore, R) :=
  claim3_disjoint_inputs_unmutated exStore [exAH, exCH]
    (by simp only [HistHNodup]; decide) (by decide)

/-! ## Claim C5 -/

/-- C5: when no clone outcome succeeded, `process_all_repos` logs the
fatal "No repositories were successfully cloned" condition and returns
the empty result before the worker pool is created: nothing is
dispatched to the analyzer and the returned history is `{}`. -/
theorem claim5_no_clones_no_dispatch (az : String → List String → Except String Hist)
    (patterns : List String) (cloneResults : List (String × Bool))
    (h : ∀ r ∈ cloneResults, r.2 = false) :
    process_all_repos az patterns cloneResults =
      ⟨[], [], Except.ok []⟩ := by
  have hfilter : cloneResults.filter (fun r => r.2) = [] := by
    rw [List.filter_eq_nil_iff]
    intro a ha
    rw [h a ha]
    simp
  simp [process_all_repos, hfilter]

/-- Witness for C5: a single failed clone outcome. -/
theorem claim5_witness :
    process_all_repos exAzFail [] [("a", false)] = ⟨[], [], Except.ok []⟩ :=
  claim5_no_clones_no_dispatch exAzFail [] [("a", false)] (by decide)

/-! ## Claim C6 -/

theorem aggregateStats_nil : aggregateStats [] = Except.ok [] := by
  rw [aggregateStats]
  rw [show List.foldlM
      (fun (agg : Hist) (h : Hist) =>
        h.foldlM
          (fun (agg : Hist) (me : String × Exts) =>
            me.2.foldlM
              (fun (agg : Hist) (ee : String × MetricSet) =>
                ee.2.foldlM (fun agg fv => addMetric agg me.1 ee.1 fv.1 fv.2) agg)
              agg)
          agg)
      [] [] = Except.ok [] from rfl]
  rw [exMap_ok, List.mergeSort_nil]

theorem collect_eq_filterMap (az : String → List String → Except String Hist)
    (patterns : List String) (paths : List String) :
    (paths.map (analyze_repo_commits az patterns)).filter (fun r => !r.isEmpty) =
      paths.filterMap (fun p =>
        match az p patterns with
        | Except.ok r => if r = [] then none else some r
        | Except.error _ => none) := by
  induction paths with
  | nil => rfl
  | cons p ps ih =>
    rw [List.map_cons, List.filter_cons, List.filterMap_cons]
    cases hp : az p patterns with
    | error err =>
      have ha : analyze_repo_commits az patterns p = [] := by
        simp [analyze_repo_commits, hp]
      rw [ha]
      simpa using ih
    | ok r =>
      have ha : analyze_repo_commits az patterns p = r := by
        simp [analyze_repo_commits, hp]
      rw [ha]
      by_cases hr : r = []
      · subst hr
        simp [ih]
      · have hne : (!r.isEmpty) = true := by
          simp [List.isEmpty_iff, hr]
        simp [hne, hr, ih]

/-- C6: a per-repository analyzer error is caught inside
`analyze_repo_commits` and becomes the empty contribution `{}`; such a
failure never halts or alters collection of the other jobs — the
collected list is exactly the non-failed, non-empty histories, one per
successfully cloned path — and the merged aggregate is built from that
collected list only. -/
theorem claim6_analyzer_failure_empty_contribution
    (az : String → List String → Except String Hist) (patterns : List String)
    (cloneResults : List (String × Bool)) :
    (∀ path err, az path patterns = Except.error err →
      analyze_repo_commits az patterns path = []) ∧
    ((process_all_repos az patterns cloneResults).collected =
      ((cloneResults.filter (fun r => r.2)).map (fun r => r.1)).filterMap
        (fun p => match az p patterns with
          | Except.ok r => if r = [] then none else some r
          | Except.error _ => none)) ∧
    ((process_all_repos az patterns cloneResults).aggregated =
      aggregateStats ((process_all_repos az patterns cloneResults).collected)) := by
  refine ⟨?_, ?_, ?_⟩
  · intro path err h
    simp [analyze_repo_commits, h]
  · by_cases hlen :
      ((cloneResults.filter (fun r => r.2)).map (fun r => r.1)).length = 0
    · have hnil : (cloneResults.filter (fun r => r.2)).map (fun r => r.1) = [] :=
        List.length_eq_zero.mp hlen
      rw [hnil]
      simp [process_all_repos, hnil]
    · simp only [process_all_repos, if_neg hlen]
      exact collect_eq_filterMap az patterns _
  · by_cases hlen :
      ((cloneResults.filter (fun r => r.2)).map (fun r => r.1)).length = 0
    · simp [process_all_repos, hlen]
      rw [aggregateStats_nil]
    · simp only [process_all_repos, if_neg hlen]

/-- Witness for C6: one failing path among two; the failure is an empty
contribution and only the successful repository enters the collection. -/
theorem claim6_witness :
    analyze_repo_commits exAzMixed [] "bad" = [] ∧
    (process_all_repos exAzMixed [] [("a", true), ("bad", true)]).collected = [exH1] :=
  ⟨(claim6_analyzer_failure_empty_contribution exAzMixed [] []).1 "bad" "boom" rfl,
    by rfl⟩

/-! ## Claim C10 -/

/-- C10: `_build_patterns` always contributes the platform no-reply
pattern and the whole-word login pattern, whatever the optional profile
fields, so the built pattern list always has at least two entries and is
never empty. -/
theorem claim10_at_least_two_patterns (u : GitHubUser) :
    Pat.noreply u.login ∈ build_patterns u ∧
    Pat.word u.login ∈ build_patterns u ∧
    2 ≤ (build_patterns u).length := by
  refine ⟨?_, ?_, ?_⟩
  · rw [build_patterns]
    simp
  · rw [build_patterns]
    simp
  · rw [build_patterns]
    simp only [List.length_append, List.length_cons, List.length_nil]
    omega

/-! ## Claim C7 -/

theorem string_toList_append (s t : String) : (s ++ t).toList = s.toList ++ t.toList := by
  cases s
  cases t
  rfl

/-- Counterexample to C7 as stated: the profile whose login is `"-"`
(non-empty) never matches its own author string.  `\b-\b` requires a word
character on exactly one side of each boundary, but `-` has word
characters on neither side in `"- <x>"`; no other pattern applies since
the profile has no name and no email. -/
theorem claim7_counterexample :
    exDashUser.login ≠ "" ∧
    is_users_commit (build_patterns exDashUser) exDashUser.login "x" = false := by
  constructor
  · decide
  · decide

/-- C7 (amended): self-match holds for every login whose first and last
characters are word characters (letters, digits or underscore) — which is
true of every valid GitHub login, as GitHub requires logins to be
alphanumeric-bounded.  The whole-word bare-login pattern then matches the
author string `f"{login} <{email}>"` at position 0, for any email. -/
theorem claim7_self_match_word_chars (u : GitHubUser) (email : String) (c d : Char)
    (hc : u.login.toList.head? = some c) (hcw : isWordChar c = true)
    (hd : u.login.toList.getLast? = some d) (hdw : isWordChar d = true) :
    is_users_commit (build_patterns u) u.login email = true := by
  set L := u.login.toList with hLdef
  set E := email.toList with hEdef
  set T := (u.login ++ " <" ++ email ++ ">").toList with hTdef
  have hT : T = L ++ (' ' :: '<' :: (E ++ ['>'])) := by
    rw [hTdef, string_toList_append, string_toList_append, string_toList_append]
    rw [show (" <" : String).toList = [' ', '<'] from rfl,
      show (">" : String).toList = ['>'] from rfl]
    simp
    rfl
  have hLne : L ≠ [] := by
    intro h
    rw [h] at hc
    exact absurd hc (by simp)
  have hLpos : 0 < L.length := List.length_pos.mpr hLne
  have hT0 : T.get? 0 = some c := by
    rw [hT, List.get?_append hLpos, List.get?_zero, hc]
  have hTprev : T.get? (L.length - 1) = some d := by
    rw [hT, List.get?_append (by omega), ← List.getLast?_eq_get? L, hd]
  have hTspace : T.get? L.length = some ' ' := by
    rw [hT, List.get?_append_right (Nat.le_refl _), Nat.sub_self]
    rfl
  have hbdry0 : bdryAt T 0 = true := by
    rw [bdryAt, prevWordAt, if_pos rfl]
    simp only [wordAt, hT0, hcw]
    rfl
  have hbdryL : bdryAt T L.length = true := by
    rw [bdryAt, prevWordAt, if_neg (show ¬(L.length = 0) from by omega)]
    simp only [wordAt, hTprev, hTspace, hdw]
    rfl
  have htake : (T.drop 0).take L.length = L := by
    rw [List.drop_zero, hT, List.take_left]
  have hmem : Pat.word u.login ∈ build_patterns u := by
    rw [build_patterns]
    simp
  rw [is_users_commit]
  refine List.any_eq_true.mpr ⟨Pat.word u.login, hmem, ?_⟩
  show wordSearch L T = true
  rw [wordSearch]
  refine List.any_eq_true.mpr ⟨0, List.mem_range.mpr (by omega), ?_⟩
  rw [htake, Nat.zero_add, hbdry0, hbdryL]
  rw [show ciEq L L = true from by simp [ciEq]]
  rfl

/-- Witness for C7's amended statement: the login `alice` (word-character
bounded) self-matches for an arbitrary email. -/
theorem claim7_witness :
    is_users_commit (build_patterns exAlice) exAlice.login "someone@example.com" = true :=
  claim7_self_match_word_chars exAlice "someone@example.com" 'a' 'e'
    (by rfl) (by decide) (by rfl) (by decide)

end RepoScan
